import Mathlib

/-!
# The Monkey lexer (`lexer/lexer.go`)

A shallow embedding of the scanner of `monkey-lang-interpreted` and proofs of
its specification.

Modelling conventions.

* A Go `string` is a sequence of bytes: `List Nat`, every element a byte value.
  The definitions never do arithmetic on a byte, so they are stated for every
  list of naturals; concrete inputs only use values below 256.
* The Go `int` cursors `position` and `readPosition` are natural numbers.  They
  only ever grow by one per `readChar`, so a 64-bit cursor cannot wrap within any
  feasible number of calls; wrap-around is not modelled.
* A Go run-time panic (a slice out of range) is the result `none`.
* The three `for` loops of the source are bounded loops whose bound is computed
  from the state; `advanceWhile_unfold` shows the bound is never exhausted (the
  definition satisfies the equation of the `for` loop in every state).
* `log.Printf` in the `ILLEGAL` branch writes to a side channel only and is
  omitted.
* The package `token` is not part of the sources: its enumeration and
  `LookupIdent` follow the specification, with the keyword table a parameter.
-/

namespace MonkeyLexer

/-! ## The `token` package -/

/-- Modelled from the spec: the reserved keyword tags of package `token`
(function, let, true, false, if, else, return), which is not among the sources. -/
inductive Keyword
  | FUNCTION | LET | TRUE | FALSE | IF | ELSE | RETURN
  deriving DecidableEq

/-- Modelled from the spec: the closed enumeration `token.TokenType`, which is
not among the sources: the lexical tags followed by the keyword tags. -/
inductive TokenType
  | ILLEGAL | EOF | IDENT | INT | ASSIGN | PLUS | MINUS | BANG | ASTERISK | SLASH
  | LESS_THAN | GREATER_THAN | EQUAL | NOT_EQUAL | COMMA | SEMICOLON
  | LEFT_PAREN | RIGHT_PAREN | LEFT_BRACE | RIGHT_BRACE
  | FUNCTION | LET | TRUE | FALSE | IF | ELSE | RETURN
  deriving DecidableEq

/-- Modelled from the spec: the token tag of a reserved keyword (package `token`
is not among the sources). -/
def Keyword.toTokenType : Keyword → TokenType
  | .FUNCTION => .FUNCTION
  | .LET => .LET
  | .TRUE => .TRUE
  | .FALSE => .FALSE
  | .IF => .IF
  | .ELSE => .ELSE
  | .RETURN => .RETURN

/-- Modelled from the spec: `token.Token`, a tag and the literal text (package
`token` is not among the sources).  The Go field `Type` is `Typ` here. -/
structure Token where
  Typ : TokenType
  Literal : List Nat
  deriving DecidableEq

/-- Modelled from the spec: `token.LookupIdent`, which is not among the sources:
"a static, read-only mapping from exact identifier text to a reserved token tag;
any identifier text not present maps to the generic identifier tag".  The table
itself is the parameter `keywords`. -/
def LookupIdent (keywords : List Nat → Option Keyword) (ident : List Nat) : TokenType :=
  match keywords ident with
  | some k => k.toTokenType
  | none => .IDENT

/-! ## Go primitives -/

/-- Go's conversion `string(ch)` of a byte: the UTF-8 encoding of the code point
`ch`, one byte below 128 and two bytes from 128 to 255. -/
def byteToString (ch : Nat) : List Nat :=
  if ch < 128 then [ch] else [192 + ch / 64, 128 + ch % 64]

/-- Go's slice expression `s[lo:hi]`, which panics unless `lo ≤ hi ≤ len(s)`. -/
def slice (s : List Nat) (lo hi : Nat) : Option (List Nat) :=
  if lo ≤ hi ∧ hi ≤ s.length then some ((s.drop lo).take (hi - lo)) else none

/-- Go's index expression `s[i]`, a byte of the string.  The source only indexes
under the guard `i < len(s)`; outside that range the model reads 0. -/
def byteAt (s : List Nat) (i : Nat) : Nat :=
  s.getD i 0

/-! ## The lexer -/

/-- The struct `Lexer`. -/
structure Lexer where
  input : List Nat
  position : Nat
  readPosition : Nat
  ch : Nat
  deriving DecidableEq

/-- The method `readChar`. -/
def Lexer.readChar (l : Lexer) : Lexer :=
  let ch := if l.readPosition ≥ l.input.length then 0 else byteAt l.input l.readPosition
  { input := l.input, position := l.readPosition, readPosition := l.readPosition + 1, ch := ch }

/-- The constructor `New`. -/
def New (input : List Nat) : Lexer :=
  Lexer.readChar { input := input, position := 0, readPosition := 0, ch := 0 }

/-- The method `peekChar`. -/
def Lexer.peekChar (l : Lexer) : Nat :=
  if l.readPosition ≥ l.input.length then 0 else byteAt l.input l.readPosition

/-- The function `newToken`. -/
def newToken (tokenType : TokenType) (ch : Nat) : Token :=
  { Typ := tokenType, Literal := byteToString ch }

/-- The function `isLetter`: `a`..`z`, `A`..`Z` or `_`. -/
def isLetter (ch : Nat) : Bool :=
  (decide (ch ≥ 97) && decide (ch ≤ 122)) || (decide (ch ≥ 65) && decide (ch ≤ 90)) || decide (ch = 95)

/-- The function `isDigit`: `0`..`9`. -/
def isDigit (ch : Nat) : Bool :=
  decide (48 ≤ ch) && decide (ch ≤ 57)

/-- The loop condition of `skipWhitespace`: space, tab, newline, carriage return. -/
def isWhitespace (ch : Nat) : Bool :=
  decide (ch = 32) || decide (ch = 9) || decide (ch = 10) || decide (ch = 13)

/-- At most `n` rounds of the loop `for p(l.ch) { l.readChar() }`. -/
def advanceLoop (p : Nat → Bool) : Nat → Lexer → Lexer
  | 0, l => l
  | n + 1, l => if p l.ch then advanceLoop p n l.readChar else l

/-- The loop `for p(l.ch) { l.readChar() }`, shared by `skipWhitespace`,
`readIdentifier` and `readNumber`.  Each round moves `readPosition` one step
towards the end of the input, after which the current character is 0. -/
def advanceWhile (p : Nat → Bool) (l : Lexer) : Lexer :=
  advanceLoop p (l.input.length - l.readPosition + 1) l

/-- The method `skipWhitespace`. -/
def Lexer.skipWhitespace (l : Lexer) : Lexer :=
  advanceWhile isWhitespace l

/-- The method `readIdentifier`: the captured text and the state it leaves. -/
def Lexer.readIdentifier (l : Lexer) : Option (List Nat × Lexer) :=
  let position := l.position
  let l1 := advanceWhile isLetter l
  (slice l1.input position l1.position).map fun s => (s, l1)

/-- The method `readNumber`: the captured text and the state it leaves. -/
def Lexer.readNumber (l : Lexer) : Option (List Nat × Lexer) :=
  let position := l.position
  let l1 := advanceWhile isDigit l
  (slice l1.input position l1.position).map fun s => (s, l1)

/-- The method `NextToken`: the token returned and the state it leaves. -/
def Lexer.NextToken (keywords : List Nat → Option Keyword) (l0 : Lexer) : Option (Token × Lexer) :=
  let l := l0.skipWhitespace
  if l.ch = 59 then some (newToken .SEMICOLON l.ch, l.readChar)         -- ';'
  else if l.ch = 40 then some (newToken .LEFT_PAREN l.ch, l.readChar)   -- '('
  else if l.ch = 41 then some (newToken .RIGHT_PAREN l.ch, l.readChar)  -- ')'
  else if l.ch = 44 then some (newToken .COMMA l.ch, l.readChar)        -- ','
  else if l.ch = 43 then some (newToken .PLUS l.ch, l.readChar)         -- '+'
  else if l.ch = 45 then some (newToken .MINUS l.ch, l.readChar)        -- '-'
  else if l.ch = 61 then                                                -- '='
    if l.peekChar = 61 then
      let ch := l.ch
      let l1 := l.readChar
      some ({ Typ := .EQUAL, Literal := byteToString ch ++ byteToString l1.ch }, l1.readChar)
    else some (newToken .ASSIGN l.ch, l.readChar)
  else if l.ch = 33 then                                                -- '!'
    if l.peekChar = 61 then
      let ch := l.ch
      let l1 := l.readChar
      some ({ Typ := .NOT_EQUAL, Literal := byteToString ch ++ byteToString l1.ch }, l1.readChar)
    else some (newToken .BANG l.ch, l.readChar)
  else if l.ch = 42 then some (newToken .ASTERISK l.ch, l.readChar)     -- '*'
  else if l.ch = 47 then some (newToken .SLASH l.ch, l.readChar)        -- '/'
  else if l.ch = 62 then some (newToken .GREATER_THAN l.ch, l.readChar) -- '>'
  else if l.ch = 60 then some (newToken .LESS_THAN l.ch, l.readChar)    -- '<'
  else if l.ch = 123 then some (newToken .LEFT_BRACE l.ch, l.readChar)  -- left brace
  else if l.ch = 125 then some (newToken .RIGHT_BRACE l.ch, l.readChar) -- right brace
  else if l.ch = 0 then some ({ Typ := .EOF, Literal := [] }, l.readChar)
  else if isLetter l.ch then
    match l.readIdentifier with
    | none => none
    | some (lit, l1) => some ({ Typ := LookupIdent keywords lit, Literal := lit }, l1)
  else if isDigit l.ch then
    match l.readNumber with
    | none => none
    | some (lit, l1) => some ({ Typ := .INT, Literal := lit }, l1)
  else some (newToken .ILLEGAL l.ch, l.readChar)

/-! ## Calling `NextToken` repeatedly -/

/-- The first `n` calls of `NextToken` from the state `l`: the tokens returned,
in order, and the state after the last call. -/
def calls (keywords : List Nat → Option Keyword) : Nat → Lexer → Option (List Token × Lexer)
  | 0, l => some ([], l)
  | n + 1, l =>
    match l.NextToken keywords with
    | none => none
    | some (t, l1) =>
      match calls keywords n l1 with
      | none => none
      | some (ts, l2) => some (t :: ts, l2)

/-- The tokens returned from the state `l` up to and including the first `EOF`,
within at most `n` calls (`none` when no `EOF` is returned within `n` calls, or
on a panic). -/
def tokensUpToEOF (keywords : List Nat → Option Keyword) : Nat → Lexer → Option (List Token)
  | 0, _ => none
  | n + 1, l =>
    match l.NextToken keywords with
    | none => none
    | some (t, l1) =>
      if t.Typ = .EOF then some [t]
      else (tokensUpToEOF keywords n l1).map fun ts => t :: ts

/-- The token sequence of an input: the tokens of `New(input)` up to and
including the first `EOF`.  `len(input)+1` calls are enough (`C2`). -/
def tokenize (keywords : List Nat → Option Keyword) (input : List Nat) : Option (List Token) :=
  tokensUpToEOF keywords (input.length + 1) (New input)

/-- The bytes of an ASCII string literal. -/
def ascii (s : String) : List Nat :=
  s.toList.map Char.toNat

/-- The keyword table of the Monkey language, used in examples. -/
def monkeyKeywords (ident : List Nat) : Option Keyword :=
  if ident = ascii "fn" then some .FUNCTION
  else if ident = ascii "let" then some .LET
  else if ident = ascii "true" then some .TRUE
  else if ident = ascii "false" then some .FALSE
  else if ident = ascii "if" then some .IF
  else if ident = ascii "else" then some .ELSE
  else if ident = ascii "return" then some .RETURN
  else none

/-! ## Well-formed states -/

/-- The state whose cursor is at index `pos`: `readPosition` is one ahead and
`ch` is the byte at `pos`, or 0 when `pos` is past the end. -/
def atPos (input : List Nat) (pos : Nat) : Lexer :=
  { input := input, position := pos, readPosition := pos + 1, ch := byteAt input pos }

/-- The relation between the fields that `New` establishes and `readChar` keeps:
the read cursor is one ahead of the cursor and `ch` is the byte under the
cursor, or 0 past the end. -/
def Lexer.Synced (l : Lexer) : Prop :=
  l.readPosition = l.position + 1 ∧ l.ch = byteAt l.input l.position

instance (l : Lexer) : Decidable l.Synced := by
  unfold Lexer.Synced; infer_instance

/-- The states reachable from `New(input)` by calls of `NextToken`. -/
inductive Reachable (keywords : List Nat → Option Keyword) (input : List Nat) : Lexer → Prop
  | init : Reachable keywords input (New input)
  | next {l l1 : Lexer} {t : Token} :
      Reachable keywords input l → l.NextToken keywords = some (t, l1) →
      Reachable keywords input l1

/-- The length of the longest prefix of `xs` whose bytes all satisfy `p`. -/
def runLength (p : Nat → Bool) (xs : List Nat) : Nat :=
  (xs.takeWhile p).length

/-- The tag of a character that is a token by itself: `; ( ) , + - * / > <` and
the two braces. -/
def singleTag (c : Nat) : Option TokenType :=
  if c = 59 then some .SEMICOLON
  else if c = 40 then some .LEFT_PAREN
  else if c = 41 then some .RIGHT_PAREN
  else if c = 44 then some .COMMA
  else if c = 43 then some .PLUS
  else if c = 45 then some .MINUS
  else if c = 42 then some .ASTERISK
  else if c = 47 then some .SLASH
  else if c = 62 then some .GREATER_THAN
  else if c = 60 then some .LESS_THAN
  else if c = 123 then some .LEFT_BRACE
  else if c = 125 then some .RIGHT_BRACE
  else none

/-- What `NextToken` does after its whitespace skip, as a function of the text
`r` that starts at the cursor: the token, and how far the cursor moves.
`NextToken_of_skip` proves that the code computes exactly this. -/
def scanAt (keywords : List Nat → Option Keyword) (r : List Nat) : Token × Nat :=
  match singleTag (byteAt r 0) with
  | some tag => (newToken tag (byteAt r 0), 1)
  | none =>
    if byteAt r 0 = 61 then
      if byteAt r 1 = 61 then ({ Typ := .EQUAL, Literal := [61, 61] }, 2)
      else (newToken .ASSIGN 61, 1)
    else if byteAt r 0 = 33 then
      if byteAt r 1 = 61 then ({ Typ := .NOT_EQUAL, Literal := [33, 61] }, 2)
      else (newToken .BANG 33, 1)
    else if byteAt r 0 = 0 then ({ Typ := .EOF, Literal := [] }, 1)
    else if isLetter (byteAt r 0) then
      ({ Typ := LookupIdent keywords (r.takeWhile isLetter), Literal := r.takeWhile isLetter },
        runLength isLetter r)
    else if isDigit (byteAt r 0) then
      ({ Typ := .INT, Literal := r.takeWhile isDigit }, runLength isDigit r)
    else (newToken .ILLEGAL (byteAt r 0), 1)

/-- What `NextToken` does, as a function of the text `rest` that starts at the
cursor: the token, and how far the cursor moves (whitespace included). -/
def scan (keywords : List Nat → Option Keyword) (rest : List Nat) : Token × Nat :=
  ((scanAt keywords (rest.drop (runLength isWhitespace rest))).1,
    runLength isWhitespace rest + (scanAt keywords (rest.drop (runLength isWhitespace rest))).2)

/-- The cursor invariant as the specification words it:
`0 ≤ position ≤ readPosition ≤ len(input)+1`. -/
def CursorInv (l : Lexer) : Prop :=
  0 ≤ l.position ∧ l.position ≤ l.readPosition ∧ l.readPosition ≤ l.input.length + 1

instance (l : Lexer) : Decidable (CursorInv l) := by
  unfold CursorInv; infer_instance

/-- The number of `EOF` tokens in a list of tokens. -/
def countEOF (ts : List Token) : Nat :=
  (ts.filter fun t => decide (t.Typ = .EOF)).length

/-- The method `peekChar` as a step on the state: the byte it returns and the
state it leaves.  The body of the method reads `readPosition` and `input` and
assigns no field of the lexer. -/
def Lexer.peekCharStep (l : Lexer) : Nat × Lexer :=
  (l.peekChar, l)

/-- The relation between the current character and the cursor as the
specification words it: `ch` is `input[position]` when `position` is in range,
else the sentinel 0. -/
def ChMirrors (l : Lexer) : Prop :=
  if l.position < l.input.length then l.input[l.position]? = some l.ch else l.ch = 0

instance (l : Lexer) : Decidable (ChMirrors l) := by
  unfold ChMirrors; infer_instance

/-- The literals of a list of tokens, concatenated in order. -/
def concatLiterals : List Token → List Nat
  | [] => []
  | t :: ts => t.Literal ++ concatLiterals ts

/-- A string with every space, tab, newline and carriage-return byte removed. -/
def removeWhitespace (s : List Nat) : List Nat :=
  s.filter fun b => !isWhitespace b

/-! ## Basic facts -/

theorem synced_iff (l : Lexer) : l.Synced ↔ l = atPos l.input l.position := by
  cases l with
  | mk i p r c =>
    simp only [Lexer.Synced, atPos, Lexer.mk.injEq, true_and]

theorem atPos_synced (i : List Nat) (pos : Nat) : (atPos i pos).Synced := by
  simp [Lexer.Synced, atPos]

@[simp] theorem byteAt_nil (n : Nat) : byteAt [] n = 0 := by
  simp [byteAt]

@[simp] theorem byteAt_cons_zero (x : Nat) (xs : List Nat) : byteAt (x :: xs) 0 = x := by
  simp [byteAt]

@[simp] theorem byteAt_cons_succ (x : Nat) (xs : List Nat) (n : Nat) :
    byteAt (x :: xs) (n + 1) = byteAt xs n := by
  simp [byteAt]

theorem byteAt_of_le (i : List Nat) (n : Nat) (h : i.length ≤ n) : byteAt i n = 0 := by
  simp [byteAt, List.getD_eq_getElem?_getD, List.getElem?_eq_none h]

theorem readChar_ch (l : Lexer) : l.readChar.ch = byteAt l.input l.readPosition := by
  simp only [Lexer.readChar]
  split
  · rename_i h
    exact (byteAt_of_le _ _ h).symm
  · rfl

theorem readChar_atPos (i : List Nat) (pos : Nat) : (atPos i pos).readChar = atPos i (pos + 1) := by
  have h := readChar_ch (atPos i pos)
  simp only [Lexer.readChar, atPos] at h ⊢
  simp only [h]

theorem New_eq (i : List Nat) : New i = atPos i 0 := by
  have h := readChar_ch { input := i, position := 0, readPosition := 0, ch := 0 }
  simp only [Lexer.readChar, New, atPos] at h ⊢
  simp only [h, Nat.zero_add]

theorem peekChar_atPos (i : List Nat) (pos : Nat) : (atPos i pos).peekChar = byteAt i (pos + 1) := by
  have h := readChar_ch (atPos i pos)
  simp only [Lexer.readChar, atPos] at h
  simp only [Lexer.peekChar, atPos]
  exact h

theorem drop_eq_cons (i : List Nat) (pos : Nat) (h : pos < i.length) :
    i.drop pos = byteAt i pos :: i.drop (pos + 1) := by
  rw [List.drop_eq_getElem_cons h]
  simp [byteAt, List.getD_eq_getElem?_getD, List.getElem?_eq_getElem h]

theorem head_drop (i : List Nat) (pos : Nat) : byteAt (i.drop pos) 0 = byteAt i pos := by
  simp [byteAt, List.getD_eq_getElem?_getD, List.getElem?_drop]

theorem runLength_drop_pos (p : Nat → Bool) (i : List Nat) (pos : Nat) (h : pos < i.length)
    (hc : p (byteAt i pos) = true) :
    runLength p (i.drop pos) = runLength p (i.drop (pos + 1)) + 1 := by
  rw [drop_eq_cons i pos h]
  simp only [runLength, List.takeWhile_cons, hc, if_true, List.length_cons]

theorem runLength_drop_neg (p : Nat → Bool) (i : List Nat) (pos : Nat)
    (hc : p (byteAt i pos) = false) :
    runLength p (i.drop pos) = 0 := by
  by_cases h : pos < i.length
  · rw [drop_eq_cons i pos h]
    simp only [runLength, List.takeWhile_cons, hc]
    rfl
  · rw [List.drop_eq_nil_of_le (by omega)]
    rfl

theorem advanceLoop_atPos (p : Nat → Bool) (hp : p 0 = false) (i : List Nat) :
    ∀ (n pos : Nat), i.length - pos ≤ n →
      advanceLoop p n (atPos i pos) = atPos i (pos + runLength p (i.drop pos)) := by
  intro n
  induction n with
  | zero =>
    intro pos h
    have hc : p (byteAt i pos) = false := by
      rw [byteAt_of_le i pos (by omega)]; exact hp
    rw [runLength_drop_neg p i pos hc]
    rfl
  | succ n ih =>
    intro pos h
    rw [advanceLoop]
    have hch : (atPos i pos).ch = byteAt i pos := rfl
    rw [hch]
    by_cases hc : p (byteAt i pos) = true
    · have hlt : pos < i.length := by
        by_contra hge
        rw [byteAt_of_le i pos (by omega), hp] at hc
        exact Bool.false_ne_true hc
      rw [if_pos hc, readChar_atPos, ih (pos + 1) (by omega), runLength_drop_pos p i pos hlt hc]
      congr 1
      omega
    · rw [if_neg hc, runLength_drop_neg p i pos (by simpa using hc)]
      rfl

theorem advanceWhile_atPos (p : Nat → Bool) (hp : p 0 = false) (i : List Nat) (pos : Nat) :
    advanceWhile p (atPos i pos) = atPos i (pos + runLength p (i.drop pos)) := by
  unfold advanceWhile
  apply advanceLoop_atPos p hp
  simp only [atPos]
  omega

/-- The bounded loop is the `for` loop of the source: in every state it
satisfies the loop's equation, so its bound is never the reason it stops. -/
theorem advanceWhile_unfold (p : Nat → Bool) (hp : p 0 = false) (l : Lexer) :
    advanceWhile p l = if p l.ch then advanceWhile p l.readChar else l := by
  unfold advanceWhile
  by_cases hlt : l.readPosition < l.input.length
  · have e : l.readChar.input.length - l.readChar.readPosition + 1
        = l.input.length - l.readPosition := by
      simp only [Lexer.readChar]; omega
    rw [e]
    have e2 : l.input.length - l.readPosition + 1 = (l.input.length - l.readPosition) + 1 := rfl
    rw [advanceLoop]
  · have e : l.input.length - l.readPosition = 0 := by omega
    have e1 : l.readChar.input.length - l.readChar.readPosition = 0 := by
      simp only [Lexer.readChar]; omega
    have h0 : l.readChar.ch = 0 := by
      rw [readChar_ch]; exact byteAt_of_le _ _ (by omega)
    rw [e, e1]
    simp [advanceLoop, h0, hp]

theorem isWhitespace_zero : isWhitespace 0 = false := by decide
theorem isLetter_zero : isLetter 0 = false := by decide
theorem isDigit_zero : isDigit 0 = false := by decide

/-! ## `NextToken` as a function of the remaining text -/

theorem byteAt_drop (i : List Nat) (s k : Nat) : byteAt (i.drop s) k = byteAt i (s + k) := by
  simp [byteAt, List.getD_eq_getElem?_getD, List.getElem?_drop]

theorem take_runLength (p : Nat → Bool) (xs : List Nat) :
    xs.take (runLength p xs) = xs.takeWhile p := by
  induction xs with
  | nil => rfl
  | cons x xs ih =>
    by_cases hx : p x = true
    · simp only [runLength, List.takeWhile_cons, hx, if_true, List.length_cons, List.take_succ_cons]
      exact congrArg _ ih
    · simp [runLength, List.takeWhile_cons, hx]

theorem runLength_le (p : Nat → Bool) (xs : List Nat) : runLength p xs ≤ xs.length := by
  unfold runLength
  exact (List.takeWhile_sublist p).length_le

theorem skipWhitespace_atPos (i : List Nat) (pos : Nat) :
    (atPos i pos).skipWhitespace = atPos i (pos + runLength isWhitespace (i.drop pos)) :=
  advanceWhile_atPos isWhitespace isWhitespace_zero i pos

theorem slice_run (p : Nat → Bool) (i : List Nat) (s : Nat) (hs : s ≤ i.length) :
    slice i s (s + runLength p (i.drop s)) = some ((i.drop s).takeWhile p) := by
  have h1 := runLength_le p (i.drop s)
  rw [List.length_drop] at h1
  unfold slice
  rw [if_pos ⟨by omega, by omega⟩]
  have e : s + runLength p (i.drop s) - s = runLength p (i.drop s) := by omega
  rw [e, take_runLength]

theorem readIdentifier_atPos (i : List Nat) (s : Nat) (hs : s ≤ i.length) :
    (atPos i s).readIdentifier
      = some ((i.drop s).takeWhile isLetter, atPos i (s + runLength isLetter (i.drop s))) := by
  unfold Lexer.readIdentifier
  simp only [advanceWhile_atPos isLetter isLetter_zero]
  show Option.map _ (slice i s (s + runLength isLetter (i.drop s))) = _
  rw [slice_run isLetter i s hs]
  rfl

theorem readNumber_atPos (i : List Nat) (s : Nat) (hs : s ≤ i.length) :
    (atPos i s).readNumber
      = some ((i.drop s).takeWhile isDigit, atPos i (s + runLength isDigit (i.drop s))) := by
  unfold Lexer.readNumber
  simp only [advanceWhile_atPos isDigit isDigit_zero]
  show Option.map _ (slice i s (s + runLength isDigit (i.drop s))) = _
  rw [slice_run isDigit i s hs]
  rfl

theorem lt_of_byteAt_ne_zero (i : List Nat) (s : Nat) (h : byteAt i s ≠ 0) : s < i.length := by
  by_contra hge
  exact h (byteAt_of_le i s (by omega))

/-- The code of `NextToken` after the whitespace skip computes `scanAt`. -/
theorem NextToken_of_skip (kw : List Nat → Option Keyword) (l0 : Lexer) (i : List Nat) (s : Nat)
    (h : l0.skipWhitespace = atPos i s) :
    l0.NextToken kw
      = some ((scanAt kw (i.drop s)).1, atPos i (s + (scanAt kw (i.drop s)).2)) := by
  have hch : (atPos i s).ch = byteAt i s := rfl
  have h1 : byteAt (i.drop s) 1 = byteAt i (s + 1) := byteAt_drop i s 1
  have hch1 : (atPos i (s + 1)).ch = byteAt i (s + 1) := rfl
  have hsle : byteAt i s ≠ 0 → s ≤ i.length := fun hne => Nat.le_of_lt (lt_of_byteAt_ne_zero i s hne)
  simp only [Lexer.NextToken, h, scanAt, head_drop, h1, peekChar_atPos, readChar_atPos, hch, hch1,
    singleTag]
  generalize byteAt i s = c at hsle
  generalize byteAt i (s + 1) = d
  by_cases c1 : c = 59
  · subst c1; simp
  by_cases c2 : c = 40
  · subst c2; simp
  by_cases c3 : c = 41
  · subst c3; simp
  by_cases c4 : c = 44
  · subst c4; simp
  by_cases c5 : c = 43
  · subst c5; simp
  by_cases c6 : c = 45
  · subst c6; simp
  by_cases c7 : c = 61
  · subst c7
    by_cases hd : d = 61
    · subst hd; simp [byteToString]
    · simp [hd]
  by_cases c8 : c = 33
  · subst c8
    by_cases hd : d = 61
    · subst hd; simp [byteToString]
    · simp [hd]
  by_cases c9 : c = 42
  · subst c9; simp
  by_cases c10 : c = 47
  · subst c10; simp
  by_cases c11 : c = 62
  · subst c11; simp
  by_cases c12 : c = 60
  · subst c12; simp
  by_cases c13 : c = 123
  · subst c13; simp
  by_cases c14 : c = 125
  · subst c14; simp
  by_cases c15 : c = 0
  · subst c15; simp
  have hs : s ≤ i.length := hsle c15
  simp only [c1, c2, c3, c4, c5, c6, c7, c8, c9, c10, c11, c12, c13, c14, c15, if_false]
  by_cases cl : isLetter c = true
  · simp only [cl, if_true, readIdentifier_atPos i s hs]
  by_cases cd : isDigit c = true
  · simp only [cl, cd, if_true, if_false, readNumber_atPos i s hs]
    simp
  · simp only [cl, cd, if_false]
    simp

/-- `NextToken` in a well-formed state computes `scan` of the text at the cursor. -/
theorem NextToken_atPos (kw : List Nat → Option Keyword) (i : List Nat) (pos : Nat) :
    (atPos i pos).NextToken kw
      = some ((scan kw (i.drop pos)).1, atPos i (pos + (scan kw (i.drop pos)).2)) := by
  rw [NextToken_of_skip kw (atPos i pos) i _ (skipWhitespace_atPos i pos)]
  simp only [scan, List.drop_drop, Nat.add_assoc]

/-! ## Properties of `scanAt` and `scan` -/

theorem singleTag_some (c : Nat) (tag : TokenType) (h : singleTag c = some tag) :
    c ≠ 0 ∧ c < 128 ∧ c ≠ 61 ∧ c ≠ 33 ∧ tag ≠ .EOF ∧ isLetter c = false ∧ isDigit c = false
      ∧ isWhitespace c = false := by
  unfold singleTag at h
  by_cases c1 : c = 59
  · subst c1; simp at h; subst h; decide
  by_cases c2 : c = 40
  · subst c2; simp at h; subst h; decide
  by_cases c3 : c = 41
  · subst c3; simp at h; subst h; decide
  by_cases c4 : c = 44
  · subst c4; simp at h; subst h; decide
  by_cases c5 : c = 43
  · subst c5; simp at h; subst h; decide
  by_cases c6 : c = 45
  · subst c6; simp at h; subst h; decide
  by_cases c7 : c = 42
  · subst c7; simp at h; subst h; decide
  by_cases c8 : c = 47
  · subst c8; simp at h; subst h; decide
  by_cases c9 : c = 62
  · subst c9; simp at h; subst h; decide
  by_cases c10 : c = 60
  · subst c10; simp at h; subst h; decide
  by_cases c11 : c = 123
  · subst c11; simp at h; subst h; decide
  by_cases c12 : c = 125
  · subst c12; simp at h; subst h; decide
  simp [c1, c2, c3, c4, c5, c6, c7, c8, c9, c10, c11, c12] at h

theorem isLetter_bound (c : Nat) (h : isLetter c = true) : c ≠ 0 ∧ c < 128 := by
  simp only [isLetter, Bool.or_eq_true, Bool.and_eq_true, decide_eq_true_eq] at h
  omega

theorem isDigit_bound (c : Nat) (h : isDigit c = true) : c ≠ 0 ∧ c < 128 := by
  simp only [isDigit, Bool.and_eq_true, decide_eq_true_eq] at h
  omega

theorem LookupIdent_ne_EOF (kw : List Nat → Option Keyword) (x : List Nat) :
    LookupIdent kw x ≠ .EOF := by
  unfold LookupIdent
  cases kw x with
  | none => simp
  | some k => cases k <;> simp [Keyword.toTokenType]

/-- The nine branches of `scanAt`. -/
theorem scanAt_cases (kw : List Nat → Option Keyword) (r : List Nat) :
    (∃ tag, singleTag (byteAt r 0) = some tag ∧ scanAt kw r = (newToken tag (byteAt r 0), 1))
    ∨ (byteAt r 0 = 61 ∧ byteAt r 1 = 61 ∧ scanAt kw r = ({ Typ := .EQUAL, Literal := [61, 61] }, 2))
    ∨ (byteAt r 0 = 61 ∧ byteAt r 1 ≠ 61 ∧ scanAt kw r = (newToken .ASSIGN 61, 1))
    ∨ (byteAt r 0 = 33 ∧ byteAt r 1 = 61
        ∧ scanAt kw r = ({ Typ := .NOT_EQUAL, Literal := [33, 61] }, 2))
    ∨ (byteAt r 0 = 33 ∧ byteAt r 1 ≠ 61 ∧ scanAt kw r = (newToken .BANG 33, 1))
    ∨ (byteAt r 0 = 0 ∧ scanAt kw r = ({ Typ := .EOF, Literal := [] }, 1))
    ∨ (isLetter (byteAt r 0) = true
        ∧ scanAt kw r = ({ Typ := LookupIdent kw (r.takeWhile isLetter),
                            Literal := r.takeWhile isLetter }, runLength isLetter r))
    ∨ (isDigit (byteAt r 0) = true
        ∧ scanAt kw r = ({ Typ := .INT, Literal := r.takeWhile isDigit }, runLength isDigit r))
    ∨ (singleTag (byteAt r 0) = none ∧ byteAt r 0 ≠ 61 ∧ byteAt r 0 ≠ 33 ∧ byteAt r 0 ≠ 0
        ∧ isLetter (byteAt r 0) = false ∧ isDigit (byteAt r 0) = false
        ∧ scanAt kw r = (newToken .ILLEGAL (byteAt r 0), 1)) := by
  unfold scanAt
  generalize byteAt r 0 = c
  generalize byteAt r 1 = d
  cases hs : singleTag c with
  | some tag => exact Or.inl ⟨tag, rfl, rfl⟩
  | none =>
    simp only
    by_cases c1 : c = 61
    · subst c1
      by_cases d1 : d = 61
      · subst d1; simp
      · simp [d1]
    by_cases c2 : c = 33
    · subst c2
      by_cases d1 : d = 61
      · subst d1; simp
      · simp [d1]
    by_cases c3 : c = 0
    · subst c3; simp
    by_cases cl : isLetter c = true
    · simp [c1, c2, c3, cl]
    by_cases cd : isDigit c = true
    · simp [c1, c2, c3, cl, cd]
    · simp [c1, c2, c3, cl, cd]

theorem head_ne_zero (r : List Nat) (h : byteAt r 0 ≠ 0) : r = byteAt r 0 :: r.tail := by
  cases r with
  | nil => simp at h
  | cons x xs => simp

theorem runLength_pos (p : Nat → Bool) (hp : p 0 = false) (r : List Nat)
    (h : p (byteAt r 0) = true) : 1 ≤ runLength p r := by
  cases r with
  | nil => simp [hp] at h
  | cons x xs =>
    simp only [byteAt_cons_zero] at h
    simp [runLength, List.takeWhile_cons, h]

theorem scanAt_eof_iff (kw : List Nat → Option Keyword) (r : List Nat) :
    (scanAt kw r).1.Typ = .EOF ↔ byteAt r 0 = 0 := by
  rcases scanAt_cases kw r with ⟨tag, ht, h⟩ | ⟨hc, _, h⟩ | ⟨hc, _, h⟩ | ⟨hc, _, h⟩ | ⟨hc, _, h⟩
    | ⟨hc, h⟩ | ⟨hc, h⟩ | ⟨hc, h⟩ | ⟨_, _, _, hc, _, _, h⟩
  · have := singleTag_some _ _ ht
    simp [h, newToken, this.1, this.2.2.2.2.1]
  · simp [h, hc]
  · simp [h, hc, newToken]
  · simp [h, hc]
  · simp [h, hc, newToken]
  · simp [h, hc]
  · simp [h, (isLetter_bound _ hc).1, LookupIdent_ne_EOF]
  · simp [h, (isDigit_bound _ hc).1]
  · simp [h, hc, newToken]

theorem scanAt_eof (kw : List Nat → Option Keyword) (r : List Nat) (h0 : byteAt r 0 = 0) :
    scanAt kw r = ({ Typ := .EOF, Literal := [] }, 1) := by
  rcases scanAt_cases kw r with ⟨tag, ht, h⟩ | ⟨hc, _, h⟩ | ⟨hc, _, h⟩ | ⟨hc, _, h⟩ | ⟨hc, _, h⟩
    | ⟨hc, h⟩ | ⟨hc, h⟩ | ⟨hc, h⟩ | ⟨_, _, _, hc, _, _, h⟩
  · exact absurd h0 (singleTag_some _ _ ht).1
  · omega
  · omega
  · omega
  · omega
  · exact h
  · exact absurd h0 (isLetter_bound _ hc).1
  · exact absurd h0 (isDigit_bound _ hc).1
  · exact absurd h0 hc

theorem scanAt_pos (kw : List Nat → Option Keyword) (r : List Nat) : 1 ≤ (scanAt kw r).2 := by
  rcases scanAt_cases kw r with ⟨tag, ht, h⟩ | ⟨hc, _, h⟩ | ⟨hc, _, h⟩ | ⟨hc, _, h⟩ | ⟨hc, _, h⟩
    | ⟨hc, h⟩ | ⟨hc, h⟩ | ⟨hc, h⟩ | ⟨_, _, _, hc, _, _, h⟩
  all_goals rw [h]
  all_goals first
    | exact Nat.le_refl 1
    | exact Nat.le_succ 1
    | exact runLength_pos isLetter isLetter_zero r hc
    | exact runLength_pos isDigit isDigit_zero r hc

theorem two_le_length (r : List Nat) (h0 : byteAt r 0 ≠ 0) (h1 : byteAt r 1 ≠ 0) :
    r = byteAt r 0 :: byteAt r 1 :: r.tail.tail := by
  cases r with
  | nil => simp at h0
  | cons x xs =>
    cases xs with
    | nil => simp at h1
    | cons y ys => simp

/-- A token other than `EOF` covers at least one and at most all of the bytes at
the cursor, and its literal is those bytes when the first of them is ASCII. -/
theorem scanAt_consumes (kw : List Nat → Option Keyword) (r : List Nat) (h0 : byteAt r 0 ≠ 0) :
    (scanAt kw r).2 ≤ r.length
      ∧ (byteAt r 0 < 128 → (scanAt kw r).1.Literal = r.take (scanAt kw r).2) := by
  have hr := head_ne_zero r h0
  have hlen : 1 ≤ r.length := by rw [hr]; simp
  have htake1 : r.take 1 = [byteAt r 0] := by rw [hr]; simp
  rcases scanAt_cases kw r with ⟨tag, ht, h⟩ | ⟨hc, hd, h⟩ | ⟨hc, _, h⟩ | ⟨hc, hd, h⟩ | ⟨hc, _, h⟩
    | ⟨hc, h⟩ | ⟨hc, h⟩ | ⟨hc, h⟩ | ⟨_, _, _, hc, _, _, h⟩
  · rw [h]
    refine ⟨hlen, fun hlt => ?_⟩
    simp only [newToken, byteToString, hlt, if_true, htake1]
  · have h2 := two_le_length r h0 (by omega)
    rw [h]
    constructor
    · rw [h2]; simp
    · intro _
      rw [h2, hc, hd]; simp
  · rw [h]
    refine ⟨hlen, fun _ => ?_⟩
    simp [newToken, byteToString, htake1, hc]
  · have h2 := two_le_length r h0 (by omega)
    rw [h]
    constructor
    · rw [h2]; simp
    · intro _
      rw [h2, hc, hd]; simp
  · rw [h]
    refine ⟨hlen, fun _ => ?_⟩
    simp [newToken, byteToString, htake1, hc]
  · exact absurd hc h0
  · rw [h]
    exact ⟨runLength_le _ _, fun _ => (take_runLength isLetter r).symm⟩
  · rw [h]
    exact ⟨runLength_le _ _, fun _ => (take_runLength isDigit r).symm⟩
  · rw [h]
    refine ⟨hlen, fun hlt => ?_⟩
    simp only [newToken, byteToString, hlt, if_true, htake1]

theorem run_stops (p : Nat → Bool) (hp : p 0 = false) (xs : List Nat) :
    p (byteAt (xs.drop (runLength p xs)) 0) = false := by
  induction xs with
  | nil => simpa [runLength] using hp
  | cons x xs ih =>
    by_cases hx : p x = true
    · simpa [runLength, List.takeWhile_cons, hx] using ih
    · simp [runLength, List.takeWhile_cons, hx]

theorem run_all (p : Nat → Bool) (xs : List Nat) (j : Nat) (hj : j < runLength p xs) :
    p (byteAt xs j) = true := by
  induction xs generalizing j with
  | nil => simp [runLength] at hj
  | cons x xs ih =>
    by_cases hx : p x = true
    · cases j with
      | zero => simpa using hx
      | succ j =>
        simp only [runLength, List.takeWhile_cons, hx, if_true, List.length_cons] at hj
        simpa using ih j (by simpa [runLength] using Nat.lt_of_succ_lt_succ hj)
    · simp [runLength, List.takeWhile_cons, hx] at hj

theorem scan_nil (kw : List Nat → Option Keyword) : scan kw [] = ({ Typ := .EOF, Literal := [] }, 1) := by
  rfl

theorem scan_pos (kw : List Nat → Option Keyword) (rest : List Nat) : 1 ≤ (scan kw rest).2 := by
  have := scanAt_pos kw (rest.drop (runLength isWhitespace rest))
  simp only [scan]
  omega

theorem scan_eof_iff (kw : List Nat → Option Keyword) (rest : List Nat) :
    (scan kw rest).1.Typ = .EOF ↔ byteAt (rest.drop (runLength isWhitespace rest)) 0 = 0 :=
  scanAt_eof_iff kw _

theorem scan_eof (kw : List Nat → Option Keyword) (rest : List Nat)
    (h : (scan kw rest).1.Typ = .EOF) :
    scan kw rest = ({ Typ := .EOF, Literal := [] }, runLength isWhitespace rest + 1) := by
  have h0 := (scan_eof_iff kw rest).1 h
  simp only [scan, scanAt_eof kw _ h0]

theorem scan_le (kw : List Nat → Option Keyword) (rest : List Nat)
    (h : (scan kw rest).1.Typ ≠ .EOF) : (scan kw rest).2 ≤ rest.length := by
  have h0 : byteAt (rest.drop (runLength isWhitespace rest)) 0 ≠ 0 :=
    fun e => h ((scan_eof_iff kw rest).2 e)
  have h1 := (scanAt_consumes kw _ h0).1
  have h2 := runLength_le isWhitespace rest
  rw [List.length_drop] at h1
  simp only [scan]
  omega

theorem scan_le_succ (kw : List Nat → Option Keyword) (rest : List Nat) :
    (scan kw rest).2 ≤ rest.length + 1 := by
  by_cases h : (scan kw rest).1.Typ = .EOF
  · rw [scan_eof kw rest h]
    have := runLength_le isWhitespace rest
    simp only
    omega
  · exact Nat.le_succ_of_le (scan_le kw rest h)

/-! ## Sequences of calls -/

theorem reachable_atPos (kw : List Nat → Option Keyword) (i : List Nat) (l : Lexer)
    (h : Reachable kw i l) : ∃ pos, l = atPos i pos := by
  induction h with
  | init => exact ⟨0, New_eq i⟩
  | next _ hstep ih =>
    obtain ⟨pos, rfl⟩ := ih
    rw [NextToken_atPos] at hstep
    injection hstep with hstep
    injection hstep with _ h2
    exact ⟨_, h2.symm⟩

theorem calls_succ_atPos (kw : List Nat → Option Keyword) (i : List Nat) (n pos : Nat) :
    calls kw (n + 1) (atPos i pos)
      = (calls kw n (atPos i (pos + (scan kw (i.drop pos)).2))).map
          fun r => ((scan kw (i.drop pos)).1 :: r.1, r.2) := by
  rw [calls, NextToken_atPos]
  simp only
  cases calls kw n (atPos i (pos + (scan kw (i.drop pos)).2)) with
  | none => rfl
  | some r => rfl

/-- Any number of calls succeeds from a well-formed state, and leaves one. -/
theorem calls_atPos (kw : List Nat → Option Keyword) (i : List Nat) :
    ∀ (n pos : Nat), ∃ ts pos1, calls kw n (atPos i pos) = some (ts, atPos i pos1)
      ∧ ts.length = n ∧ pos ≤ pos1 := by
  intro n
  induction n with
  | zero => exact fun pos => ⟨[], pos, rfl, rfl, Nat.le_refl _⟩
  | succ n ih =>
    intro pos
    obtain ⟨ts, pos1, h, hl, hp⟩ := ih (pos + (scan kw (i.drop pos)).2)
    refine ⟨(scan kw (i.drop pos)).1 :: ts, pos1, ?_, by simp [hl], by omega⟩
    rw [calls_succ_atPos, h]
    rfl

theorem calls_past_end (kw : List Nat → Option Keyword) (i : List Nat) :
    ∀ (n pos : Nat), i.length ≤ pos →
      calls kw n (atPos i pos)
        = some (List.replicate n { Typ := .EOF, Literal := [] }, atPos i (pos + n)) := by
  intro n
  induction n with
  | zero => exact fun pos _ => rfl
  | succ n ih =>
    intro pos h
    rw [calls_succ_atPos, List.drop_eq_nil_of_le h, scan_nil, ih (pos + 1) (by omega)]
    simp only [Option.map_some', List.replicate_succ, Nat.add_assoc, Nat.add_comm 1 n]

theorem byteAt_mem (i : List Nat) (n : Nat) (h : n < i.length) : byteAt i n ∈ i := by
  have e : byteAt i n = i[n] := by
    simp [byteAt, List.getD_eq_getElem?_getD, List.getElem?_eq_getElem h]
  rw [e]
  exact List.getElem_mem h

theorem end_of_zero (i : List Nat) (h0 : ∀ b ∈ i, b ≠ 0) (n : Nat)
    (h : byteAt (i.drop n) 0 = 0) : i.length ≤ n := by
  by_contra hlt
  rw [byteAt_drop] at h
  exact h0 _ (byteAt_mem i n (by omega)) h

theorem eof_terminal_aux (kw : List Nat → Option Keyword) (i : List Nat)
    (h0 : ∀ b ∈ i, b ≠ 0) :
    ∀ (m pos : Nat), ∃ ts pos1, calls kw m (atPos i pos) = some (ts, atPos i pos1)
      ∧ ts.length = m
      ∧ ∀ j k, j ≤ k → k < m → (ts[j]?).map Token.Typ = some .EOF
          → ts[k]? = some { Typ := .EOF, Literal := [] } := by
  intro m
  induction m with
  | zero => exact fun pos => ⟨[], pos, rfl, rfl, fun j k _ hk => absurd hk (Nat.not_lt_zero k)⟩
  | succ m ih =>
    intro pos
    obtain ⟨ts, pos1, hc, hl, hprop⟩ := ih (pos + (scan kw (i.drop pos)).2)
    refine ⟨(scan kw (i.drop pos)).1 :: ts, pos1, ?_, by simp [hl], ?_⟩
    · rw [calls_succ_atPos, hc]; rfl
    · intro j k hjk hk hj
      cases j with
      | zero =>
        have hE : (scan kw (i.drop pos)).1.Typ = .EOF := by simpa using hj
        have hz := (scan_eof_iff kw (i.drop pos)).1 hE
        rw [List.drop_drop] at hz
        have hend := end_of_zero i h0 _ hz
        have hs := scan_eof kw (i.drop pos) hE
        have hpast := calls_past_end kw i m (pos + (scan kw (i.drop pos)).2)
          (by rw [hs]; simp only; omega)
        rw [hc] at hpast
        injection hpast with hpast
        injection hpast with hts _
        rw [hts, hs]
        cases k with
        | zero => simp
        | succ k =>
          simp only [List.getElem?_cons_succ]
          rw [List.getElem?_replicate]
          simp only [ite_eq_left_iff]
          intro hnot
          omega
      | succ j =>
        cases k with
        | zero => omega
        | succ k =>
          simp only [List.getElem?_cons_succ] at hj ⊢
          exact hprop j k (by omega) (by omega) hj

theorem reaches_eof_aux (kw : List Nat → Option Keyword) (i : List Nat) :
    ∀ (fuel pos : Nat), i.length - pos < fuel →
      ∃ ts pos1, tokensUpToEOF kw fuel (atPos i pos) = some ts
        ∧ calls kw ts.length (atPos i pos) = some (ts, atPos i pos1)
        ∧ 1 ≤ ts.length ∧ ts.length ≤ i.length - pos + 1
        ∧ (ts.getLast?).map Token.Typ = some .EOF
        ∧ ∀ t ∈ ts.dropLast, t.Typ ≠ .EOF := by
  intro fuel
  induction fuel with
  | zero => exact fun pos h => absurd h (Nat.not_lt_zero _)
  | succ f ih =>
    intro pos hf
    by_cases hE : (scan kw (i.drop pos)).1.Typ = .EOF
    · refine ⟨[(scan kw (i.drop pos)).1], pos + (scan kw (i.drop pos)).2, ?_, ?_, ?_, ?_, ?_, ?_⟩
      · rw [tokensUpToEOF, NextToken_atPos]
        simp only [hE, if_true]
      · show calls kw 1 (atPos i pos) = _
        rw [calls_succ_atPos]; rfl
      · simp
      · simp
      · simp [hE]
      · simp
    · have hk := scan_le kw (i.drop pos) hE
      have hk1 := scan_pos kw (i.drop pos)
      rw [List.length_drop] at hk
      obtain ⟨ts, pos1, h1, h2, h3, h4, h5, h6⟩ :=
        ih (pos + (scan kw (i.drop pos)).2) (by omega)
      refine ⟨(scan kw (i.drop pos)).1 :: ts, pos1, ?_, ?_, ?_, ?_, ?_, ?_⟩
      · rw [tokensUpToEOF, NextToken_atPos]
        simp only [hE, if_false, h1, Option.map_some']
      · show calls kw (ts.length + 1) (atPos i pos) = _
        rw [calls_succ_atPos, h2]; rfl
      · simp
      · simp only [List.length_cons]; omega
      · cases ts with
        | nil => simp at h3
        | cons x xs => simpa using h5
      · cases ts with
        | nil => simp at h3
        | cons x xs =>
          intro t ht
          simp only [List.dropLast_cons₂, List.mem_cons] at ht
          rcases ht with rfl | ht
          · exact hE
          · exact h6 t ht

theorem count_bound_aux (kw : List Nat → Option Keyword) (i : List Nat) :
    ∀ (n pos e : Nat) (ts : List Token) (l : Lexer), pos ≤ i.length + e →
      calls kw n (atPos i pos) = some (ts, l) →
      l.readPosition = l.position + 1 ∧ l.position ≤ i.length + e + countEOF ts := by
  intro n
  induction n with
  | zero =>
    intro pos e ts l hp h
    simp only [calls, Option.some.injEq, Prod.mk.injEq] at h
    obtain ⟨rfl, rfl⟩ := h
    exact ⟨rfl, by simpa [countEOF, atPos] using hp⟩
  | succ n ih =>
    intro pos e ts l hp h
    rw [calls_succ_atPos] at h
    obtain ⟨ts1, pos1, h1, -, -⟩ := calls_atPos kw i n (pos + (scan kw (i.drop pos)).2)
    rw [h1] at h
    simp only [Option.map_some', Option.some.injEq, Prod.mk.injEq] at h
    obtain ⟨rfl, rfl⟩ := h
    by_cases hE : (scan kw (i.drop pos)).1.Typ = .EOF
    · have hs := scan_le_succ kw (i.drop pos)
      rw [List.length_drop] at hs
      have := ih (pos + (scan kw (i.drop pos)).2) (e + 1) ts1 _ (by omega) h1
      refine ⟨this.1, ?_⟩
      have hc : countEOF ((scan kw (i.drop pos)).1 :: ts1) = countEOF ts1 + 1 := by
        simp [countEOF, hE]
      rw [hc]
      omega
    · have hs := scan_le kw (i.drop pos) hE
      have hs1 := scan_pos kw (i.drop pos)
      rw [List.length_drop] at hs
      have := ih (pos + (scan kw (i.drop pos)).2) e ts1 _ (by omega) h1
      refine ⟨this.1, ?_⟩
      have hc : countEOF ((scan kw (i.drop pos)).1 :: ts1) = countEOF ts1 := by
        simp [countEOF, hE]
      rw [hc]
      exact this.2

theorem advanceLoop_order (p : Nat → Bool) :
    ∀ (n : Nat) (l : Lexer), l.position ≤ l.readPosition →
      (advanceLoop p n l).position ≤ (advanceLoop p n l).readPosition := by
  intro n
  induction n with
  | zero => exact fun l h => h
  | succ n ih =>
    intro l h
    rw [advanceLoop]
    split
    · exact ih _ (Nat.le_succ _)
    · exact h

/-- The state a call of `NextToken` leaves, in any state: one or two `readChar`
after the whitespace skip, or the end of an identifier or number loop. -/
theorem NextToken_shape (kw : List Nat → Option Keyword) (l l1 : Lexer) (t : Token)
    (h : l.NextToken kw = some (t, l1)) :
    l1 = l.skipWhitespace.readChar ∨ l1 = l.skipWhitespace.readChar.readChar
      ∨ l1 = advanceWhile isLetter l.skipWhitespace
      ∨ l1 = advanceWhile isDigit l.skipWhitespace := by
  unfold Lexer.NextToken at h
  dsimp only at h
  generalize l.skipWhitespace = x at h ⊢
  have fin : ∀ {tok : Token} (y : Lexer), some (tok, y) = some (t, l1) → l1 = y := by
    intro tok y e
    injection e with e
    injection e with _ e
    exact e.symm
  by_cases c : x.ch = 59
  · rw [if_pos c] at h; exact Or.inl (fin _ h)
  rw [if_neg c] at h; clear c
  by_cases c : x.ch = 40
  · rw [if_pos c] at h; exact Or.inl (fin _ h)
  rw [if_neg c] at h; clear c
  by_cases c : x.ch = 41
  · rw [if_pos c] at h; exact Or.inl (fin _ h)
  rw [if_neg c] at h; clear c
  by_cases c : x.ch = 44
  · rw [if_pos c] at h; exact Or.inl (fin _ h)
  rw [if_neg c] at h; clear c
  by_cases c : x.ch = 43
  · rw [if_pos c] at h; exact Or.inl (fin _ h)
  rw [if_neg c] at h; clear c
  by_cases c : x.ch = 45
  · rw [if_pos c] at h; exact Or.inl (fin _ h)
  rw [if_neg c] at h; clear c
  by_cases c : x.ch = 61
  · rw [if_pos c] at h
    by_cases d : x.peekChar = 61
    · rw [if_pos d] at h; exact Or.inr (Or.inl (fin _ h))
    · rw [if_neg d] at h; exact Or.inl (fin _ h)
  rw [if_neg c] at h; clear c
  by_cases c : x.ch = 33
  · rw [if_pos c] at h
    by_cases d : x.peekChar = 61
    · rw [if_pos d] at h; exact Or.inr (Or.inl (fin _ h))
    · rw [if_neg d] at h; exact Or.inl (fin _ h)
  rw [if_neg c] at h; clear c
  by_cases c : x.ch = 42
  · rw [if_pos c] at h; exact Or.inl (fin _ h)
  rw [if_neg c] at h; clear c
  by_cases c : x.ch = 47
  · rw [if_pos c] at h; exact Or.inl (fin _ h)
  rw [if_neg c] at h; clear c
  by_cases c : x.ch = 62
  · rw [if_pos c] at h; exact Or.inl (fin _ h)
  rw [if_neg c] at h; clear c
  by_cases c : x.ch = 60
  · rw [if_pos c] at h; exact Or.inl (fin _ h)
  rw [if_neg c] at h; clear c
  by_cases c : x.ch = 123
  · rw [if_pos c] at h; exact Or.inl (fin _ h)
  rw [if_neg c] at h; clear c
  by_cases c : x.ch = 125
  · rw [if_pos c] at h; exact Or.inl (fin _ h)
  rw [if_neg c] at h; clear c
  by_cases c : x.ch = 0
  · rw [if_pos c] at h; exact Or.inl (fin _ h)
  rw [if_neg c] at h; clear c
  by_cases c : isLetter x.ch = true
  · rw [if_pos c] at h
    unfold Lexer.readIdentifier at h
    dsimp only at h
    cases hsl : slice (advanceWhile isLetter x).input x.position (advanceWhile isLetter x).position with
    | none => rw [hsl] at h; simp at h
    | some lit =>
      rw [hsl] at h
      exact Or.inr (Or.inr (Or.inl (fin _ h)))
  rw [if_neg c] at h; clear c
  by_cases c : isDigit x.ch = true
  · rw [if_pos c] at h
    unfold Lexer.readNumber at h
    dsimp only at h
    cases hsl : slice (advanceWhile isDigit x).input x.position (advanceWhile isDigit x).position with
    | none => rw [hsl] at h; simp at h
    | some lit =>
      rw [hsl] at h
      exact Or.inr (Or.inr (Or.inr (fin _ h)))
  rw [if_neg c] at h
  exact Or.inl (fin _ h)

theorem NextToken_order (kw : List Nat → Option Keyword) (l l1 : Lexer) (t : Token)
    (h0 : l.position ≤ l.readPosition) (h : l.NextToken kw = some (t, l1)) :
    l1.position ≤ l1.readPosition := by
  have hs : l.skipWhitespace.position ≤ l.skipWhitespace.readPosition :=
    advanceLoop_order _ _ _ h0
  rcases NextToken_shape kw l l1 t h with e | e | e | e
  · rw [e]; exact Nat.le_succ _
  · rw [e]; exact Nat.le_succ _
  · rw [e]; exact advanceLoop_order _ _ _ hs
  · rw [e]; exact advanceLoop_order _ _ _ hs

/-! ## One call in a well-formed state -/

/-- In a well-formed state the whitespace skip stops at the first index `s` at or
after `position` whose byte is not whitespace, and the call returns
`scanAt` of the text from `s`. -/
theorem synced_next (kw : List Nat → Option Keyword) (l : Lexer) (hl : l.Synced) :
    l.skipWhitespace = atPos l.input l.skipWhitespace.position
      ∧ l.skipWhitespace.position
          = l.position + runLength isWhitespace (l.input.drop l.position)
      ∧ l.skipWhitespace.ch = byteAt l.input l.skipWhitespace.position
      ∧ l.NextToken kw
          = some ((scanAt kw (l.input.drop l.skipWhitespace.position)).1,
              atPos l.input (l.skipWhitespace.position
                + (scanAt kw (l.input.drop l.skipWhitespace.position)).2)) := by
  have e := (synced_iff l).1 hl
  have hsk : l.skipWhitespace
      = atPos l.input (l.position + runLength isWhitespace (l.input.drop l.position)) := by
    conv_lhs => rw [e]
    exact skipWhitespace_atPos _ _
  have hp : l.skipWhitespace.position
      = l.position + runLength isWhitespace (l.input.drop l.position) := by
    rw [hsk]; rfl
  refine ⟨by rw [hp]; exact hsk, hp, by rw [hp, hsk]; rfl, ?_⟩
  rw [hp]
  exact NextToken_of_skip kw l _ _ hsk

theorem byteAt_eq_iff (i : List Nat) (n c : Nat) (hc : c ≠ 0) :
    byteAt i n = c ↔ i[n]? = some c := by
  unfold byteAt
  rw [List.getD_eq_getElem?_getD]
  cases i[n]? with
  | none => simp; exact fun e => hc e.symm
  | some x => simp

theorem scanAt_assign (kw : List Nat → Option Keyword) (r : List Nat) (h : byteAt r 0 = 61) :
    scanAt kw r = if byteAt r 1 = 61 then ({ Typ := .EQUAL, Literal := [61, 61] }, 2)
      else ({ Typ := .ASSIGN, Literal := [61] }, 1) := by
  unfold scanAt
  rw [h]
  rfl

theorem scanAt_bang (kw : List Nat → Option Keyword) (r : List Nat) (h : byteAt r 0 = 33) :
    scanAt kw r = if byteAt r 1 = 61 then ({ Typ := .NOT_EQUAL, Literal := [33, 61] }, 2)
      else ({ Typ := .BANG, Literal := [33] }, 1) := by
  unfold scanAt
  rw [h]
  rfl

theorem singleTag_none_of_letter (c : Nat) (h : isLetter c = true) : singleTag c = none := by
  cases hs : singleTag c with
  | none => rfl
  | some tag =>
    have := (singleTag_some c tag hs).2.2.2.2.2.1
    rw [h] at this
    exact absurd this (by decide)

theorem singleTag_none_of_digit (c : Nat) (h : isDigit c = true) : singleTag c = none := by
  cases hs : singleTag c with
  | none => rfl
  | some tag =>
    have := (singleTag_some c tag hs).2.2.2.2.2.2.1
    rw [h] at this
    exact absurd this (by decide)

theorem scanAt_letter (kw : List Nat → Option Keyword) (r : List Nat)
    (h : isLetter (byteAt r 0) = true) :
    scanAt kw r = ({ Typ := LookupIdent kw (r.takeWhile isLetter),
                     Literal := r.takeWhile isLetter }, runLength isLetter r) := by
  have h1 : byteAt r 0 ≠ 61 := fun e => by rw [e] at h; exact absurd h (by decide)
  have h2 : byteAt r 0 ≠ 33 := fun e => by rw [e] at h; exact absurd h (by decide)
  have h3 : byteAt r 0 ≠ 0 := (isLetter_bound _ h).1
  unfold scanAt
  rw [singleTag_none_of_letter _ h]
  simp only [h1, h2, h3, h, if_true, if_false]

theorem scanAt_digit (kw : List Nat → Option Keyword) (r : List Nat)
    (h : isDigit (byteAt r 0) = true) :
    scanAt kw r = ({ Typ := .INT, Literal := r.takeWhile isDigit }, runLength isDigit r) := by
  have h1 : byteAt r 0 ≠ 61 := fun e => by rw [e] at h; exact absurd h (by decide)
  have h2 : byteAt r 0 ≠ 33 := fun e => by rw [e] at h; exact absurd h (by decide)
  have h3 : byteAt r 0 ≠ 0 := (isDigit_bound _ h).1
  have h4 : isLetter (byteAt r 0) = false := by
    simp only [isDigit, Bool.and_eq_true, decide_eq_true_eq] at h
    simp only [isLetter, Bool.or_eq_false_iff, Bool.and_eq_false_iff, decide_eq_false_iff_not]
    omega
  unfold scanAt
  rw [singleTag_none_of_digit _ h]
  simp only [h1, h2, h3, h4, h, if_true, if_false, Bool.false_eq_true]

theorem scanAt_illegal (kw : List Nat → Option Keyword) (r : List Nat)
    (hs : singleTag (byteAt r 0) = none) (h1 : byteAt r 0 ≠ 61) (h2 : byteAt r 0 ≠ 33)
    (h3 : byteAt r 0 ≠ 0) (h4 : isLetter (byteAt r 0) = false)
    (h5 : isDigit (byteAt r 0) = false) :
    scanAt kw r = (newToken .ILLEGAL (byteAt r 0), 1) := by
  unfold scanAt
  rw [hs]
  simp only [h1, h2, h3, h4, h5, if_false, Bool.false_eq_true]

/-- The run of bytes satisfying `p` that starts at index `s`: where it ends, the
slice it is, and that it is maximal. -/
theorem run_facts (p : Nat → Bool) (hp : p 0 = false) (i : List Nat) (s : Nat)
    (hs : s ≤ i.length) :
    s + runLength p (i.drop s) ≤ i.length
      ∧ slice i s (s + runLength p (i.drop s)) = some ((i.drop s).takeWhile p)
      ∧ (∀ j, s ≤ j → j < s + runLength p (i.drop s) → p (byteAt i j) = true)
      ∧ p (byteAt i (s + runLength p (i.drop s))) = false := by
  have h1 := runLength_le p (i.drop s)
  rw [List.length_drop] at h1
  refine ⟨by omega, slice_run p i s hs, ?_, ?_⟩
  · intro j hj1 hj2
    have := run_all p (i.drop s) (j - s) (by omega)
    rw [byteAt_drop] at this
    rwa [show s + (j - s) = j by omega] at this
  · have := run_stops p hp (i.drop s)
    rwa [List.drop_drop, head_drop] at this

theorem tokensUpToEOF_step (kw : List Nat → Option Keyword) (n : Nat) (l l1 : Lexer) (t : Token)
    (h : l.NextToken kw = some (t, l1)) (hne : t.Typ ≠ .EOF) :
    tokensUpToEOF kw (n + 1) l = (tokensUpToEOF kw n l1).map fun ts => t :: ts := by
  rw [tokensUpToEOF, h]
  simp only [hne, if_false]

/-! ## The token sequence as a function of the text -/

theorem tokens_of_suffix (kw : List Nat → Option Keyword) :
    ∀ (f : Nat) (i j : List Nat) (pos pos1 : Nat), i.drop pos = j.drop pos1 →
      tokensUpToEOF kw f (atPos i pos) = tokensUpToEOF kw f (atPos j pos1) := by
  intro f
  induction f with
  | zero => exact fun _ _ _ _ _ => rfl
  | succ f ih =>
    intro i j pos pos1 h
    rw [tokensUpToEOF, tokensUpToEOF, NextToken_atPos, NextToken_atPos, h]
    simp only
    rw [ih i j (pos + (scan kw (j.drop pos1)).2) (pos1 + (scan kw (j.drop pos1)).2)
      (by rw [← List.drop_drop, ← List.drop_drop, h])]

theorem tokens_succ (kw : List Nat → Option Keyword) (f : Nat) (r : List Nat) :
    tokensUpToEOF kw (f + 1) (atPos r 0)
      = if (scan kw r).1.Typ = .EOF then some [(scan kw r).1]
        else (tokensUpToEOF kw f (atPos (r.drop (scan kw r).2) 0)).map
          fun ts => (scan kw r).1 :: ts := by
  rw [tokensUpToEOF, NextToken_atPos]
  simp only [List.drop_zero]
  rw [tokens_of_suffix kw f r (r.drop (scan kw r).2) (0 + (scan kw r).2) 0 (by simp)]

theorem tokens_fuel (kw : List Nat → Option Keyword) :
    ∀ (f g : Nat) (r : List Nat), r.length < f → r.length < g →
      tokensUpToEOF kw f (atPos r 0) = tokensUpToEOF kw g (atPos r 0) := by
  intro f
  induction f with
  | zero => exact fun g r h _ => absurd h (Nat.not_lt_zero _)
  | succ f ih =>
    intro g r hf hg
    cases g with
    | zero => exact absurd hg (Nat.not_lt_zero _)
    | succ g =>
      rw [tokens_succ, tokens_succ]
      by_cases hE : (scan kw r).1.Typ = .EOF
      · rw [if_pos hE, if_pos hE]
      · rw [if_neg hE, if_neg hE]
        have h1 := scan_le kw r hE
        have h2 := scan_pos kw r
        rw [ih g (r.drop (scan kw r).2) (by rw [List.length_drop]; omega)
          (by rw [List.length_drop]; omega)]

theorem takeWhile_append_all (p : Nat → Bool) (w r : List Nat) (hw : ∀ b ∈ w, p b = true) :
    (w ++ r).takeWhile p = w ++ r.takeWhile p := by
  induction w with
  | nil => rfl
  | cons x xs ih =>
    have hx : p x = true := hw x (List.mem_cons_self _ _)
    simp only [List.cons_append, List.takeWhile_cons, hx, if_true]
    rw [ih (fun b hb => hw b (List.mem_cons_of_mem _ hb))]

theorem takeWhile_append_none (p : Nat → Bool) (r w : List Nat) (hw : ∀ b ∈ w, p b = false) :
    (r ++ w).takeWhile p = r.takeWhile p := by
  induction r with
  | nil =>
    cases w with
    | nil => rfl
    | cons y ys => simp [List.takeWhile_cons, hw y (List.mem_cons_self _ _)]
  | cons x xs ih =>
    simp only [List.cons_append, List.takeWhile_cons, ih]

theorem takeWhile_append_short (p : Nat → Bool) (r w : List Nat)
    (h : runLength p r < r.length) : (r ++ w).takeWhile p = r.takeWhile p := by
  induction r with
  | nil => simp at h
  | cons x xs ih =>
    by_cases hx : p x = true
    · simp only [runLength, List.takeWhile_cons, hx, if_true, List.length_cons] at h
      simp only [List.cons_append, List.takeWhile_cons, hx, if_true]
      rw [ih (by simpa [runLength] using Nat.lt_of_succ_lt_succ h)]
    · simp [List.takeWhile_cons, hx]

theorem isWhitespace_props (b : Nat) (h : isWhitespace b = true) :
    isLetter b = false ∧ isDigit b = false ∧ b ≠ 61 := by
  simp only [isWhitespace, Bool.or_eq_true, decide_eq_true_eq] at h
  rcases h with ((h | h) | h) | h <;> subst h <;> decide

/-- `scanAt` reads the text only through its first byte, whether its second byte
is `=`, and its leading runs of letters and of digits. -/
theorem scanAt_congr (kw : List Nat → Option Keyword) (a b : List Nat)
    (h0 : byteAt a 0 = byteAt b 0) (h1 : (byteAt a 1 = 61) = (byteAt b 1 = 61))
    (hl : a.takeWhile isLetter = b.takeWhile isLetter)
    (hd : a.takeWhile isDigit = b.takeWhile isDigit) : scanAt kw a = scanAt kw b := by
  unfold scanAt runLength
  simp only [h0, hl, hd]
  simp only [h1]

theorem scanAt_append_ws (kw : List Nat → Option Keyword) (r w : List Nat) (hr : r ≠ [])
    (hw : ∀ b ∈ w, isWhitespace b = true) : scanAt kw (r ++ w) = scanAt kw r := by
  apply scanAt_congr
  · cases r with
    | nil => exact absurd rfl hr
    | cons x xs => simp
  · cases r with
    | nil => exact absurd rfl hr
    | cons x xs =>
      cases xs with
      | cons y ys => simp
      | nil =>
        cases w with
        | nil => simp
        | cons z zs =>
          have := (isWhitespace_props z (hw z (List.mem_cons_self _ _))).2.2
          simp [this]
  · exact takeWhile_append_none _ _ _ fun b hb => (isWhitespace_props b (hw b hb)).1
  · exact takeWhile_append_none _ _ _ fun b hb => (isWhitespace_props b (hw b hb)).2.1

theorem scan_prepend_ws (kw : List Nat → Option Keyword) (w r : List Nat)
    (hw : ∀ b ∈ w, isWhitespace b = true) :
    scan kw (w ++ r) = ((scan kw r).1, w.length + (scan kw r).2) := by
  have e : runLength isWhitespace (w ++ r) = w.length + runLength isWhitespace r := by
    simp [runLength, takeWhile_append_all isWhitespace w r hw]
  have d : (w ++ r).drop (w.length + runLength isWhitespace r)
      = r.drop (runLength isWhitespace r) := by
    rw [← List.drop_drop, List.drop_left]
  simp only [scan, e, d, Nat.add_assoc]

theorem scan_append_ws (kw : List Nat → Option Keyword) (r w : List Nat)
    (hw : ∀ b ∈ w, isWhitespace b = true) :
    (scan kw (r ++ w)).1 = (scan kw r).1
      ∧ ((scan kw r).1.Typ ≠ .EOF → (scan kw (r ++ w)).2 = (scan kw r).2) := by
  by_cases hall : runLength isWhitespace r < r.length
  · have e : runLength isWhitespace (r ++ w) = runLength isWhitespace r := by
      simp [runLength, takeWhile_append_short isWhitespace r w hall]
    have d : (r ++ w).drop (runLength isWhitespace r)
        = r.drop (runLength isWhitespace r) ++ w := by
      rw [List.drop_append_of_le_length (Nat.le_of_lt hall)]
    have hne : r.drop (runLength isWhitespace r) ≠ [] := by
      intro hnil
      have := congrArg List.length hnil
      rw [List.length_drop] at this
      simp at this
      omega
    simp only [scan, e, d, scanAt_append_ws kw _ w hne hw]
    exact ⟨trivial, fun _ => trivial⟩
  · have hlen : runLength isWhitespace r = r.length :=
      Nat.le_antisymm (runLength_le _ _) (Nat.le_of_not_lt hall)
    have hr : ∀ b ∈ r, isWhitespace b = true := by
      intro b hb
      obtain ⟨n, hn, rfl⟩ := List.getElem_of_mem hb
      have := run_all isWhitespace r n (by omega)
      simpa [byteAt, List.getD_eq_getElem?_getD, List.getElem?_eq_getElem hn] using this
    have h1 : scan kw r = ({ Typ := .EOF, Literal := [] }, r.length + 1) := by
      have hz : (scan kw r).1.Typ = .EOF := by
        rw [scan_eof_iff, hlen, List.drop_length]; rfl
      rw [scan_eof kw r hz, hlen]
    have h2 : scan kw (r ++ w) = ((scan kw []).1, (r ++ w).length + (scan kw []).2) := by
      have := scan_prepend_ws kw (r ++ w) [] (by
        intro b hb
        rcases List.mem_append.1 hb with hb | hb
        · exact hr b hb
        · exact hw b hb)
      simpa using this
    rw [h1, h2, scan_nil]
    exact ⟨rfl, fun hne => absurd rfl hne⟩

theorem tokens_prepend_ws (kw : List Nat → Option Keyword) (f : Nat) (w r : List Nat)
    (hw : ∀ b ∈ w, isWhitespace b = true) :
    tokensUpToEOF kw f (atPos (w ++ r) 0) = tokensUpToEOF kw f (atPos r 0) := by
  cases f with
  | zero => rfl
  | succ f =>
    rw [tokens_succ, tokens_succ, scan_prepend_ws kw w r hw]
    simp only
    rw [← List.drop_drop, List.drop_left]

theorem tokens_append_ws (kw : List Nat → Option Keyword) (w : List Nat)
    (hw : ∀ b ∈ w, isWhitespace b = true) :
    ∀ (f : Nat) (r : List Nat),
      tokensUpToEOF kw f (atPos (r ++ w) 0) = tokensUpToEOF kw f (atPos r 0) := by
  intro f
  induction f with
  | zero => exact fun _ => rfl
  | succ f ih =>
    intro r
    obtain ⟨h1, h2⟩ := scan_append_ws kw r w hw
    rw [tokens_succ, tokens_succ, h1]
    by_cases hE : (scan kw r).1.Typ = .EOF
    · rw [if_pos hE, if_pos hE]
    · rw [if_neg hE, if_neg hE, h2 hE,
        List.drop_append_of_le_length (scan_le kw r hE), ih]

theorem singleTag_none_of_not_mem (c : Nat)
    (h : c ∉ [59, 40, 41, 44, 43, 45, 42, 47, 62, 60, 123, 125, 61, 33]) :
    singleTag c = none ∧ c ≠ 61 ∧ c ≠ 33 := by
  simp only [List.mem_cons, List.mem_singleton, List.not_mem_nil, not_or, or_false] at h
  obtain ⟨c1, c2, c3, c4, c5, c6, c7, c8, c9, c10, c11, c12, c13, c14⟩ := h
  refine ⟨?_, c13, c14⟩
  unfold singleTag
  simp only [c1, c2, c3, c4, c5, c6, c7, c8, c9, c10, c11, c12, if_false]

/-- The whitespace skip stops at the first index at or after `position` whose
byte is not whitespace: that index is unique. -/
theorem skip_position_unique (l : Lexer) (hl : l.Synced) (s : Nat) (hs1 : l.position ≤ s)
    (hs2 : ∀ j, l.position ≤ j → j < s → isWhitespace (byteAt l.input j) = true)
    (hs3 : isWhitespace (byteAt l.input s) = false) :
    l.skipWhitespace.position = s := by
  obtain ⟨_, hp, _, _⟩ := synced_next (fun _ => none) l hl
  have hstop := run_stops isWhitespace isWhitespace_zero (l.input.drop l.position)
  rw [List.drop_drop, head_drop, ← hp] at hstop
  rcases Nat.lt_trichotomy l.skipWhitespace.position s with hlt | heq | hgt
  · have := hs2 _ (by omega) hlt
    rw [hstop] at this
    exact absurd this (by decide)
  · exact heq
  · have := run_all isWhitespace (l.input.drop l.position) (s - l.position) (by omega)
    rw [byteAt_drop, show l.position + (s - l.position) = s by omega, hs3] at this
    exact absurd this (by decide)

theorem high_byte_illegal (kw : List Nat → Option Keyword) (r : List Nat)
    (h : 128 ≤ byteAt r 0) : scanAt kw r = (newToken .ILLEGAL (byteAt r 0), 1) := by
  apply scanAt_illegal
  · cases hs : singleTag (byteAt r 0) with
    | none => rfl
    | some tag =>
      have := (singleTag_some _ tag hs).2.1
      omega
  · omega
  · omega
  · omega
  · cases hb : isLetter (byteAt r 0) with
    | false => rfl
    | true =>
      have := (isLetter_bound _ hb).2
      omega
  · cases hb : isDigit (byteAt r 0) with
    | false => rfl
    | true =>
      have := (isDigit_bound _ hb).2
      omega

theorem reaches_eof_tokenize (kw : List Nat → Option Keyword) (s : List Nat) :
    ∃ n ts l, 1 ≤ n ∧ n ≤ s.length + 1 ∧ calls kw n (New s) = some (ts, l) ∧ ts.length = n
      ∧ (ts.getLast?).map Token.Typ = some .EOF
      ∧ (∀ t ∈ ts.dropLast, t.Typ ≠ .EOF)
      ∧ tokenize kw s = some ts := by
  obtain ⟨ts, pos1, h1, h2, h3, h4, h5, h6⟩ :=
    reaches_eof_aux kw s (s.length + 1) 0 (by omega)
  refine ⟨ts.length, ts, atPos s pos1, h3, by omega, ?_, rfl, h5, h6, ?_⟩
  · rw [New_eq]; exact h2
  · unfold tokenize; rw [New_eq]; exact h1

/-! ## Every call ends with a `readChar` -/

theorem advanceLoop_preserves (P : Lexer → Prop) (hP : ∀ l : Lexer, P l.readChar)
    (p : Nat → Bool) :
    ∀ (n : Nat) (l : Lexer), P l → P (advanceLoop p n l) := by
  intro n
  induction n with
  | zero => exact fun l h => h
  | succ n ih =>
    intro l h
    rw [advanceLoop]
    split
    · exact ih _ (hP l)
    · exact h

theorem advanceLoop_position_le (p : Nat → Bool) :
    ∀ (n : Nat) (l : Lexer), l.position ≤ l.readPosition →
      l.position ≤ (advanceLoop p n l).position := by
  intro n
  induction n with
  | zero => exact fun l _ => Nat.le_refl _
  | succ n ih =>
    intro l h
    rw [advanceLoop]
    split
    · exact Nat.le_trans h (ih l.readChar (Nat.le_succ _))
    · exact Nat.le_refl _

/-- In any state, the state a call of `NextToken` leaves is the result of a
`readChar`, made in the state after the whitespace skip or one `readChar` later,
followed by further rounds of an identifier or number loop: the branches for
letters and digits run their loop at least once, since the loop condition is the
branch condition. -/
theorem NextToken_after_readChar (kw : List Nat → Option Keyword) (l l1 : Lexer) (t : Token)
    (h : l.NextToken kw = some (t, l1)) :
    ∃ (y : Lexer) (n : Nat) (p : Nat → Bool),
      (y = l.skipWhitespace ∨ y = l.skipWhitespace.readChar)
        ∧ l1 = advanceLoop p n y.readChar := by
  unfold Lexer.NextToken at h
  dsimp only at h
  generalize l.skipWhitespace = x at h ⊢
  have fin : ∀ {tok : Token} (z : Lexer), some (tok, z) = some (t, l1) → l1 = z := by
    intro tok z e
    injection e with e
    injection e with _ e
    exact e.symm
  have one : ∀ {tok : Token}, some (tok, x.readChar) = some (t, l1) →
      ∃ (y : Lexer) (n : Nat) (p : Nat → Bool),
        (y = x ∨ y = x.readChar) ∧ l1 = advanceLoop p n y.readChar :=
    fun e => ⟨x, 0, isLetter, Or.inl rfl, fin _ e⟩
  have two : ∀ {tok : Token}, some (tok, x.readChar.readChar) = some (t, l1) →
      ∃ (y : Lexer) (n : Nat) (p : Nat → Bool),
        (y = x ∨ y = x.readChar) ∧ l1 = advanceLoop p n y.readChar :=
    fun e => ⟨x.readChar, 0, isLetter, Or.inr rfl, fin _ e⟩
  by_cases c : x.ch = 59
  · rw [if_pos c] at h; exact one h
  rw [if_neg c] at h; clear c
  by_cases c : x.ch = 40
  · rw [if_pos c] at h; exact one h
  rw [if_neg c] at h; clear c
  by_cases c : x.ch = 41
  · rw [if_pos c] at h; exact one h
  rw [if_neg c] at h; clear c
  by_cases c : x.ch = 44
  · rw [if_pos c] at h; exact one h
  rw [if_neg c] at h; clear c
  by_cases c : x.ch = 43
  · rw [if_pos c] at h; exact one h
  rw [if_neg c] at h; clear c
  by_cases c : x.ch = 45
  · rw [if_pos c] at h; exact one h
  rw [if_neg c] at h; clear c
  by_cases c : x.ch = 61
  · rw [if_pos c] at h
    by_cases d : x.peekChar = 61
    · rw [if_pos d] at h; exact two h
    · rw [if_neg d] at h; exact one h
  rw [if_neg c] at h; clear c
  by_cases c : x.ch = 33
  · rw [if_pos c] at h
    by_cases d : x.peekChar = 61
    · rw [if_pos d] at h; exact two h
    · rw [if_neg d] at h; exact one h
  rw [if_neg c] at h; clear c
  by_cases c : x.ch = 42
  · rw [if_pos c] at h; exact one h
  rw [if_neg c] at h; clear c
  by_cases c : x.ch = 47
  · rw [if_pos c] at h; exact one h
  rw [if_neg c] at h; clear c
  by_cases c : x.ch = 62
  · rw [if_pos c] at h; exact one h
  rw [if_neg c] at h; clear c
  by_cases c : x.ch = 60
  · rw [if_pos c] at h; exact one h
  rw [if_neg c] at h; clear c
  by_cases c : x.ch = 123
  · rw [if_pos c] at h; exact one h
  rw [if_neg c] at h; clear c
  by_cases c : x.ch = 125
  · rw [if_pos c] at h; exact one h
  rw [if_neg c] at h; clear c
  by_cases c : x.ch = 0
  · rw [if_pos c] at h; exact one h
  rw [if_neg c] at h; clear c
  by_cases c : isLetter x.ch = true
  · rw [if_pos c] at h
    unfold Lexer.readIdentifier at h
    dsimp only at h
    cases hsl : slice (advanceWhile isLetter x).input x.position (advanceWhile isLetter x).position with
    | none => rw [hsl] at h; simp at h
    | some lit =>
      rw [hsl] at h
      refine ⟨x, x.input.length - x.readPosition, isLetter, Or.inl rfl, ?_⟩
      rw [fin _ h]
      unfold advanceWhile
      rw [advanceLoop, if_pos c]
  rw [if_neg c] at h; clear c
  by_cases c : isDigit x.ch = true
  · rw [if_pos c] at h
    unfold Lexer.readNumber at h
    dsimp only at h
    cases hsl : slice (advanceWhile isDigit x).input x.position (advanceWhile isDigit x).position with
    | none => rw [hsl] at h; simp at h
    | some lit =>
      rw [hsl] at h
      refine ⟨x, x.input.length - x.readPosition, isDigit, Or.inl rfl, ?_⟩
      rw [fin _ h]
      unfold advanceWhile
      rw [advanceLoop, if_pos c]
  rw [if_neg c] at h
  exact one h

theorem readChar_mirrors (l : Lexer) : ChMirrors l.readChar := by
  unfold ChMirrors
  simp only [Lexer.readChar]
  by_cases h : l.readPosition < l.input.length
  · rw [if_pos h, if_neg (by omega : ¬ l.readPosition ≥ l.input.length)]
    simp [byteAt, List.getD_eq_getElem?_getD, List.getElem?_eq_getElem h]
  · rw [if_neg h, if_pos (by omega : l.readPosition ≥ l.input.length)]

theorem readChar_ahead (l : Lexer) : l.readChar.readPosition = l.readChar.position + 1 := rfl

/-! ## The literals -/

theorem singleTag_ne_INT (c : Nat) (tag : TokenType) (h : singleTag c = some tag) :
    tag ≠ .INT := by
  unfold singleTag at h
  by_cases c1 : c = 59
  · subst c1; simp at h; subst h; decide
  by_cases c2 : c = 40
  · subst c2; simp at h; subst h; decide
  by_cases c3 : c = 41
  · subst c3; simp at h; subst h; decide
  by_cases c4 : c = 44
  · subst c4; simp at h; subst h; decide
  by_cases c5 : c = 43
  · subst c5; simp at h; subst h; decide
  by_cases c6 : c = 45
  · subst c6; simp at h; subst h; decide
  by_cases c7 : c = 42
  · subst c7; simp at h; subst h; decide
  by_cases c8 : c = 47
  · subst c8; simp at h; subst h; decide
  by_cases c9 : c = 62
  · subst c9; simp at h; subst h; decide
  by_cases c10 : c = 60
  · subst c10; simp at h; subst h; decide
  by_cases c11 : c = 123
  · subst c11; simp at h; subst h; decide
  by_cases c12 : c = 125
  · subst c12; simp at h; subst h; decide
  simp [c1, c2, c3, c4, c5, c6, c7, c8, c9, c10, c11, c12] at h

theorem LookupIdent_ne_INT (kw : List Nat → Option Keyword) (x : List Nat) :
    LookupIdent kw x ≠ .INT := by
  unfold LookupIdent
  cases kw x with
  | none => simp
  | some k => cases k <;> simp [Keyword.toTokenType]

theorem takeWhile_ne_nil (p : Nat → Bool) (hp : p 0 = false) (r : List Nat)
    (h : p (byteAt r 0) = true) : r.takeWhile p ≠ [] := by
  intro e
  have := runLength_pos p hp r h
  rw [runLength, e] at this
  exact absurd this (by decide)

/-- A token of type `INT` comes from the digit branch. -/
theorem scanAt_INT (kw : List Nat → Option Keyword) (r : List Nat)
    (h : (scanAt kw r).1.Typ = .INT) :
    isDigit (byteAt r 0) = true ∧ (scanAt kw r).1.Literal = r.takeWhile isDigit := by
  rcases scanAt_cases kw r with ⟨tag, ht, e⟩ | ⟨_, _, e⟩ | ⟨_, _, e⟩ | ⟨_, _, e⟩ | ⟨_, _, e⟩
    | ⟨_, e⟩ | ⟨_, e⟩ | ⟨hc, e⟩ | ⟨_, _, _, _, _, _, e⟩
  · rw [e] at h
    exact absurd h (singleTag_ne_INT _ tag ht)
  · rw [e] at h; simp at h
  · rw [e] at h; simp [newToken] at h
  · rw [e] at h; simp at h
  · rw [e] at h; simp [newToken] at h
  · rw [e] at h; simp at h
  · rw [e] at h
    exact absurd h (LookupIdent_ne_INT kw _)
  · rw [e]
    exact ⟨hc, rfl⟩
  · rw [e] at h; simp [newToken] at h

theorem not_ws_of_letter (b : Nat) (h : isLetter b = true) : isWhitespace b = false := by
  cases hw : isWhitespace b with
  | false => rfl
  | true =>
    rw [(isWhitespace_props b hw).1] at h
    exact absurd h (by decide)

theorem not_ws_of_digit (b : Nat) (h : isDigit b = true) : isWhitespace b = false := by
  cases hw : isWhitespace b with
  | false => rfl
  | true =>
    rw [(isWhitespace_props b hw).2.1] at h
    exact absurd h (by decide)

theorem byteToString_clean (c : Nat) (h : isWhitespace c = false) :
    ∀ b ∈ byteToString c, isWhitespace b = false := by
  intro b hb
  unfold byteToString at hb
  split at hb
  · simp only [List.mem_singleton] at hb
    rw [hb]; exact h
  · simp only [List.mem_cons, List.mem_singleton, List.not_mem_nil, or_false] at hb
    have hge : 128 ≤ b := by
      rcases hb with rfl | rfl <;> omega
    cases hw : isWhitespace b with
    | false => rfl
    | true =>
      simp only [isWhitespace, Bool.or_eq_true, decide_eq_true_eq] at hw
      omega

/-- No literal contains a whitespace byte. -/
theorem scanAt_literal_clean (kw : List Nat → Option Keyword) (r : List Nat)
    (h : isWhitespace (byteAt r 0) = false) :
    ∀ b ∈ (scanAt kw r).1.Literal, isWhitespace b = false := by
  rcases scanAt_cases kw r with ⟨tag, _, e⟩ | ⟨_, _, e⟩ | ⟨_, _, e⟩ | ⟨_, _, e⟩ | ⟨_, _, e⟩
    | ⟨_, e⟩ | ⟨_, e⟩ | ⟨_, e⟩ | ⟨_, _, _, _, _, _, e⟩
  · rw [e]; exact byteToString_clean _ h
  · rw [e]; decide
  · rw [e]; decide
  · rw [e]; decide
  · rw [e]; decide
  · rw [e]; intro b hb; simp at hb
  · rw [e]
    intro b hb
    exact not_ws_of_letter b (by simpa using (List.mem_takeWhile_imp hb))
  · rw [e]
    intro b hb
    exact not_ws_of_digit b (by simpa using (List.mem_takeWhile_imp hb))
  · rw [e]; exact byteToString_clean _ h

theorem removeWhitespace_run (xs : List Nat) :
    removeWhitespace (xs.takeWhile isWhitespace) = [] := by
  unfold removeWhitespace
  rw [List.filter_eq_nil_iff]
  intro b hb
  simpa using List.mem_takeWhile_imp hb

theorem removeWhitespace_clean (xs : List Nat) (h : ∀ b ∈ xs, isWhitespace b = false) :
    removeWhitespace xs = xs := by
  unfold removeWhitespace
  rw [List.filter_eq_self]
  intro b hb
  simp [h b hb]

theorem removeWhitespace_append (xs ys : List Nat) :
    removeWhitespace (xs ++ ys) = removeWhitespace xs ++ removeWhitespace ys := by
  unfold removeWhitespace
  exact List.filter_append _ _

theorem literals_cover (kw : List Nat → Option Keyword) :
    ∀ (f : Nat) (r : List Nat), r.length < f → (∀ b ∈ r, b ≠ 0 ∧ b < 128) →
      ∃ ts, tokensUpToEOF kw f (atPos r 0) = some ts
        ∧ concatLiterals ts = removeWhitespace r := by
  intro f
  induction f with
  | zero => exact fun r h _ => absurd h (Nat.not_lt_zero _)
  | succ f ih =>
    intro r hf hr
    have hsplit : r = r.takeWhile isWhitespace ++ r.drop (runLength isWhitespace r) := by
      rw [← take_runLength]; exact (List.take_append_drop _ _).symm
    have hstop := run_stops isWhitespace isWhitespace_zero r
    rw [tokens_succ]
    by_cases hE : (scan kw r).1.Typ = .EOF
    · rw [if_pos hE]
      refine ⟨_, rfl, ?_⟩
      have hz := (scan_eof_iff kw r).1 hE
      have hend := end_of_zero r (fun b hb => (hr b hb).1) _ hz
      have hnil : r.drop (runLength isWhitespace r) = [] := List.drop_eq_nil_of_le hend
      rw [scan_eof kw r hE]
      conv_rhs => rw [hsplit, hnil, List.append_nil, removeWhitespace_run]
      rfl
    · rw [if_neg hE]
      have hnz : byteAt (r.drop (runLength isWhitespace r)) 0 ≠ 0 :=
        fun e => hE ((scan_eof_iff kw r).2 e)
      have hmem : byteAt (r.drop (runLength isWhitespace r)) 0 ∈ r := by
        rw [byteAt_drop]
        apply byteAt_mem
        have := lt_of_byteAt_ne_zero _ _ hnz
        rw [List.length_drop] at this
        omega
      obtain ⟨_, hlit⟩ := scanAt_consumes kw _ hnz
      have hlit1 := hlit (hr _ hmem).2
      have hclean := scanAt_literal_clean kw _ hstop
      have hk := scan_le kw r hE
      have hk1 := scan_pos kw r
      obtain ⟨ts, h1, h2⟩ := ih (r.drop (scan kw r).2) (by rw [List.length_drop]; omega)
        (fun b hb => hr b (List.mem_of_mem_drop hb))
      refine ⟨(scan kw r).1 :: ts, by rw [h1]; rfl, ?_⟩
      have hd : r.drop (scan kw r).2
          = (r.drop (runLength isWhitespace r)).drop
              (scanAt kw (r.drop (runLength isWhitespace r))).2 := by
        simp only [scan, List.drop_drop]
      have hsplit2 : r.drop (runLength isWhitespace r)
          = (scanAt kw (r.drop (runLength isWhitespace r))).1.Literal ++ r.drop (scan kw r).2 := by
        rw [hd, hlit1]; exact (List.take_append_drop _ _).symm
      conv_rhs => rw [hsplit, removeWhitespace_append, removeWhitespace_run, hsplit2,
        removeWhitespace_append, removeWhitespace_clean _ hclean, ← h2]
      rfl

/-! ## The claims -/

/-- C1, as stated, fails on an input with a zero byte: on the two bytes `0, 'a'`
the first call of `NextToken` returns `EOF` (the byte 0 is the sentinel) and runs
`readChar`, and the second call returns the identifier `a`. -/
theorem C1_counterexample :
    calls monkeyKeywords 2 (New [0, 97])
      = some ([{ Typ := .EOF, Literal := [] }, { Typ := .IDENT, Literal := [97] }],
          { input := [0, 97], position := 2, readPosition := 3, ch := 0 }) := by
  decide

/-- C1, amended: for every input that contains no zero byte, any number `m` of
calls of `NextToken` on `New(input)` return, and once one of them (call `j`) has
returned a token of type `EOF`, every later one (call `k`) returns the token of
type `EOF` with empty literal. -/
theorem C1_eof_is_terminal (kw : List Nat → Option Keyword) (input : List Nat)
    (h0 : ∀ b ∈ input, b ≠ 0) (m : Nat) :
    ∃ ts l, calls kw m (New input) = some (ts, l) ∧ ts.length = m
      ∧ ∀ j k, j ≤ k → k < m → (ts[j]?).map Token.Typ = some .EOF
          → ts[k]? = some { Typ := .EOF, Literal := [] } := by
  obtain ⟨ts, pos1, h1, h2, h3⟩ := eof_terminal_aux kw input h0 m 0
  exact ⟨ts, atPos input pos1, by rw [New_eq]; exact h1, h2, h3⟩

/-- C1 at the input `a;` and five calls. -/
theorem C1_eof_is_terminal_witness :
    (∀ b ∈ ascii "a;", b ≠ 0)
      ∧ ∃ ts l, calls monkeyKeywords 5 (New (ascii "a;")) = some (ts, l) ∧ ts.length = 5
        ∧ ∀ j k, j ≤ k → k < 5 → (ts[j]?).map Token.Typ = some .EOF
            → ts[k]? = some { Typ := .EOF, Literal := [] } :=
  ⟨by decide, C1_eof_is_terminal monkeyKeywords (ascii "a;") (by decide) 5⟩

/-- C2: for every input `s` there is an `n` with `1 ≤ n ≤ len(s)+1` such that the
first `n` calls of `NextToken` on `New(s)` all return, the `n`-th returns a token
of type `EOF` and none of the earlier ones does; these `n` tokens are the token
sequence of `s`. -/
theorem C2_reaches_eof (kw : List Nat → Option Keyword) (s : List Nat) :
    ∃ n ts l, 1 ≤ n ∧ n ≤ s.length + 1 ∧ calls kw n (New s) = some (ts, l) ∧ ts.length = n
      ∧ (ts.getLast?).map Token.Typ = some .EOF
      ∧ (∀ t ∈ ts.dropLast, t.Typ ≠ .EOF)
      ∧ tokenize kw s = some ts :=
  reaches_eof_tokenize kw s

/-- C3, as stated, fails: the state `New("")` satisfies
`0 ≤ position ≤ readPosition ≤ len(input)+1`, and neither `readChar` nor
`NextToken` preserves it there; both leave `position = 1`, `readPosition = 2`. -/
theorem C3_counterexample :
    CursorInv (New [])
      ∧ (New []).readChar = { input := [], position := 1, readPosition := 2, ch := 0 }
      ∧ ¬ CursorInv (New []).readChar
      ∧ (New []).NextToken monkeyKeywords
          = some ({ Typ := .EOF, Literal := [] },
              { input := [], position := 1, readPosition := 2, ch := 0 })
      ∧ ¬ CursorInv { input := [], position := 1, readPosition := 2, ch := 0 } := by
  decide

/-- C3, amended: `0 ≤ position ≤ readPosition` is a state invariant: it holds for
`New(input)` and every call of `readChar` and of `NextToken`, in any state `l0`
that satisfies it, preserves it.  The upper bound holds for `New(input)`, where
`readPosition ≤ len(input)+1`, and after `n` calls of `NextToken` on `New(input)`
it is `readPosition = position+1 ≤ len(input)+1+e`, where `e` is the number of
those calls that returned `EOF`. -/
theorem C3_cursor_invariant (kw : List Nat → Option Keyword) (input : List Nat)
    (l0 l1 : Lexer) (t1 : Token) (n : Nat) (ts : List Token) (l : Lexer)
    (h0 : 0 ≤ l0.position ∧ l0.position ≤ l0.readPosition)
    (h1 : l0.NextToken kw = some (t1, l1))
    (h : calls kw n (New input) = some (ts, l)) :
    CursorInv (New input)
      ∧ (0 ≤ l0.readChar.position ∧ l0.readChar.position ≤ l0.readChar.readPosition)
      ∧ (0 ≤ l1.position ∧ l1.position ≤ l1.readPosition)
      ∧ (0 ≤ l.position ∧ l.position ≤ l.readPosition)
      ∧ l.readPosition = l.position + 1
      ∧ l.readPosition ≤ input.length + 1 + countEOF ts := by
  rw [New_eq] at h
  have hb := count_bound_aux kw input n 0 0 ts l (Nat.zero_le _) h
  refine ⟨?_, ⟨Nat.zero_le _, Nat.le_succ _⟩, ⟨Nat.zero_le _, NextToken_order kw l0 l1 t1 h0.2 h1⟩,
    ⟨Nat.zero_le _, by omega⟩, hb.1, by omega⟩
  rw [New_eq]
  simp only [CursorInv, atPos]
  omega

/-- C3 at the input `1 ` (a digit and a space): the state `l0` after one call,
and the three calls that bring `New(input)` to the state after the second
`EOF`. -/
theorem C3_cursor_invariant_witness :
    CursorInv (New (ascii "1 "))
      ∧ (0 ≤ (atPos (ascii "1 ") 1).readChar.position
          ∧ (atPos (ascii "1 ") 1).readChar.position ≤ (atPos (ascii "1 ") 1).readChar.readPosition)
      ∧ (0 ≤ (atPos (ascii "1 ") 3).position
          ∧ (atPos (ascii "1 ") 3).position ≤ (atPos (ascii "1 ") 3).readPosition)
      ∧ (0 ≤ (atPos (ascii "1 ") 4).position
          ∧ (atPos (ascii "1 ") 4).position ≤ (atPos (ascii "1 ") 4).readPosition)
      ∧ (atPos (ascii "1 ") 4).readPosition = (atPos (ascii "1 ") 4).position + 1
      ∧ (atPos (ascii "1 ") 4).readPosition
          ≤ (ascii "1 ").length + 1
            + countEOF [{ Typ := .INT, Literal := [49] }, { Typ := .EOF, Literal := [] },
                { Typ := .EOF, Literal := [] }] :=
  C3_cursor_invariant monkeyKeywords (ascii "1 ") (atPos (ascii "1 ") 1) (atPos (ascii "1 ") 3)
    { Typ := .EOF, Literal := [] } 3
    [{ Typ := .INT, Literal := [49] }, { Typ := .EOF, Literal := [] },
      { Typ := .EOF, Literal := [] }]
    (atPos (ascii "1 ") 4) (by decide) (by decide) (by decide)

/-- C4, as stated, fails: on `New("")` the call returns `EOF` with empty literal
but moves the cursor: `position` goes from 0 to 1 and `readPosition` from 1 to
2, because the `EOF` branch also reaches the `readChar` that ends `NextToken`. -/
theorem C4_counterexample :
    (New []).skipWhitespace = { input := [], position := 0, readPosition := 1, ch := 0 }
      ∧ ((New []).NextToken monkeyKeywords).map Prod.snd
          = some { input := [], position := 1, readPosition := 2, ch := 0 }
      ∧ ((New []).NextToken monkeyKeywords).map Prod.fst
          = some { Typ := .EOF, Literal := [] } := by
  decide

/-- C4, amended: when `NextToken` is called in a well-formed state whose current
character after the whitespace skip is the sentinel 0, it returns the token of
type `EOF` with empty literal and then runs `readChar` once: the state it leaves
is the state after the skip advanced by one `readChar`, so `position` and
`readPosition` are each one more than after the skip and the input is
unchanged. -/
theorem C4_eof_advances (kw : List Nat → Option Keyword) (l : Lexer) (hl : l.Synced)
    (h : l.skipWhitespace.ch = 0) :
    ∃ l1, l.NextToken kw = some ({ Typ := .EOF, Literal := [] }, l1)
      ∧ l1 = l.skipWhitespace.readChar
      ∧ l1.position = l.skipWhitespace.position + 1
      ∧ l1.readPosition = l.skipWhitespace.readPosition + 1
      ∧ l1.input = l.input := by
  rw [(synced_iff l).1 hl] at h ⊢
  rw [skipWhitespace_atPos] at h ⊢
  have hz : byteAt (l.input.drop (l.position + runLength isWhitespace (l.input.drop l.position))) 0
      = 0 := by
    rw [head_drop]; exact h
  rw [NextToken_of_skip kw _ _ _ (skipWhitespace_atPos l.input l.position), scanAt_eof kw _ hz,
    readChar_atPos]
  exact ⟨_, rfl, rfl, rfl, rfl, rfl⟩

/-- C4 at `New("")`. -/
theorem C4_eof_advances_witness :
    ∃ l1, (New []).NextToken monkeyKeywords = some ({ Typ := .EOF, Literal := [] }, l1)
      ∧ l1 = (New []).skipWhitespace.readChar
      ∧ l1.position = (New []).skipWhitespace.position + 1
      ∧ l1.readPosition = (New []).skipWhitespace.readPosition + 1
      ∧ l1.input = (New []).input :=
  C4_eof_advances monkeyKeywords (New []) (by decide) (by decide)

/-- C5: in every well-formed state whose current character after the whitespace
skip, at index `p`, is `=`: `NextToken` returns `EQUAL` with literal `==` and ends
with `position = p+2` if `input[p+1]` exists and is `=`, and otherwise returns
`ASSIGN` with literal `=` and ends with `position = p+1`; likewise for `!` with
`NOT_EQUAL`, literal `!=`, and `BANG`, literal `!`.  The inputs `=`, `==`, `!`
and `!=` yield exactly `[ASSIGN, EOF]`, `[EQUAL, EOF]`, `[BANG, EOF]` and
`[NOT_EQUAL, EOF]`. -/
theorem C5_two_character_lookahead (kw : List Nat → Option Keyword) (l : Lexer)
    (hl : l.Synced) :
    (l.skipWhitespace.ch = 61 → l.input[l.skipWhitespace.position + 1]? = some 61 →
        ∃ l1, l.NextToken kw = some ({ Typ := .EQUAL, Literal := [61, 61] }, l1)
          ∧ l1.position = l.skipWhitespace.position + 2)
    ∧ (l.skipWhitespace.ch = 61 → l.input[l.skipWhitespace.position + 1]? ≠ some 61 →
        ∃ l1, l.NextToken kw = some ({ Typ := .ASSIGN, Literal := [61] }, l1)
          ∧ l1.position = l.skipWhitespace.position + 1)
    ∧ (l.skipWhitespace.ch = 33 → l.input[l.skipWhitespace.position + 1]? = some 61 →
        ∃ l1, l.NextToken kw = some ({ Typ := .NOT_EQUAL, Literal := [33, 61] }, l1)
          ∧ l1.position = l.skipWhitespace.position + 2)
    ∧ (l.skipWhitespace.ch = 33 → l.input[l.skipWhitespace.position + 1]? ≠ some 61 →
        ∃ l1, l.NextToken kw = some ({ Typ := .BANG, Literal := [33] }, l1)
          ∧ l1.position = l.skipWhitespace.position + 1)
    ∧ tokenize kw (ascii "=") = some [{ Typ := .ASSIGN, Literal := ascii "=" },
        { Typ := .EOF, Literal := [] }]
    ∧ tokenize kw (ascii "==") = some [{ Typ := .EQUAL, Literal := ascii "==" },
        { Typ := .EOF, Literal := [] }]
    ∧ tokenize kw (ascii "!") = some [{ Typ := .BANG, Literal := ascii "!" },
        { Typ := .EOF, Literal := [] }]
    ∧ tokenize kw (ascii "!=") = some [{ Typ := .NOT_EQUAL, Literal := ascii "!=" },
        { Typ := .EOF, Literal := [] }] := by
  obtain ⟨_, _, hch, hnext⟩ := synced_next kw l hl
  have hiff := byteAt_eq_iff l.input (l.skipWhitespace.position + 1) 61 (by decide)
  have h1 := byteAt_drop l.input l.skipWhitespace.position 1
  have h0 := head_drop l.input l.skipWhitespace.position
  rw [hnext, hch]
  refine ⟨?_, ?_, ?_, ?_, rfl, rfl, rfl, rfl⟩
  · intro hc hd
    rw [scanAt_assign kw _ (h0.trans hc), h1, if_pos (hiff.2 hd)]
    exact ⟨_, rfl, rfl⟩
  · intro hc hd
    rw [scanAt_assign kw _ (h0.trans hc), h1, if_neg (fun e => hd (hiff.1 e))]
    exact ⟨_, rfl, rfl⟩
  · intro hc hd
    rw [scanAt_bang kw _ (h0.trans hc), h1, if_pos (hiff.2 hd)]
    exact ⟨_, rfl, rfl⟩
  · intro hc hd
    rw [scanAt_bang kw _ (h0.trans hc), h1, if_neg (fun e => hd (hiff.1 e))]
    exact ⟨_, rfl, rfl⟩

/-- C5 at the states `New("a ==b")` after one call, `New("=b")`, `New(" !=")`
and `New("!")`. -/
theorem C5_two_character_lookahead_witness :
    (∃ l1, (atPos (ascii "a ==b") 1).NextToken monkeyKeywords
        = some ({ Typ := .EQUAL, Literal := [61, 61] }, l1)
        ∧ l1.position = (atPos (ascii "a ==b") 1).skipWhitespace.position + 2)
    ∧ (∃ l1, (New (ascii "=b")).NextToken monkeyKeywords
        = some ({ Typ := .ASSIGN, Literal := [61] }, l1)
        ∧ l1.position = (New (ascii "=b")).skipWhitespace.position + 1)
    ∧ (∃ l1, (New (ascii " !=")).NextToken monkeyKeywords
        = some ({ Typ := .NOT_EQUAL, Literal := [33, 61] }, l1)
        ∧ l1.position = (New (ascii " !=")).skipWhitespace.position + 2)
    ∧ (∃ l1, (New (ascii "!")).NextToken monkeyKeywords
        = some ({ Typ := .BANG, Literal := [33] }, l1)
        ∧ l1.position = (New (ascii "!")).skipWhitespace.position + 1) :=
  ⟨(C5_two_character_lookahead monkeyKeywords (atPos (ascii "a ==b") 1) (by decide)).1
      (by decide) (by decide),
    (C5_two_character_lookahead monkeyKeywords (New (ascii "=b")) (by decide)).2.1
      (by decide) (by decide),
    (C5_two_character_lookahead monkeyKeywords (New (ascii " !=")) (by decide)).2.2.1
      (by decide) (by decide),
    (C5_two_character_lookahead monkeyKeywords (New (ascii "!")) (by decide)).2.2.2.1
      (by decide) (by decide)⟩

/-- C6: in every well-formed state whose current character after the whitespace
skip, at index `p`, is a letter or underscore, `NextToken` returns a token whose
literal is `input[p:q]` and whose type is `LookupIdent(input[p:q])`, and ends with
`position = q`, where `q` is the least index `≥ p` with `q = len(input)` or
`input[q]` not a letter or underscore: every byte from `p` up to `q` is a letter
or underscore and `q ≤ len(input)`.  A digit ends the run: `abc1` yields the
identifier `abc` followed by `INT` `1`. -/
theorem C6_identifier_maximal_munch (kw : List Nat → Option Keyword) (l : Lexer)
    (hl : l.Synced) (hc : isLetter l.skipWhitespace.ch = true) :
    (∃ q lit l1, l.NextToken kw = some ({ Typ := LookupIdent kw lit, Literal := lit }, l1)
      ∧ l1.position = q
      ∧ slice l.input l.skipWhitespace.position q = some lit
      ∧ l.skipWhitespace.position < q ∧ q ≤ l.input.length
      ∧ (∀ j, l.skipWhitespace.position ≤ j → j < q → isLetter (byteAt l.input j) = true)
      ∧ (q = l.input.length ∨ (q < l.input.length ∧ isLetter (byteAt l.input q) = false)))
    ∧ tokenize kw (ascii "abc1")
        = some [{ Typ := LookupIdent kw (ascii "abc"), Literal := ascii "abc" },
            { Typ := .INT, Literal := ascii "1" }, { Typ := .EOF, Literal := [] }] := by
  obtain ⟨_, _, hch, hnext⟩ := synced_next kw l hl
  rw [hch] at hc
  have h0 := head_drop l.input l.skipWhitespace.position
  have hlt := lt_of_byteAt_ne_zero _ _ (isLetter_bound _ hc).1
  obtain ⟨f1, f2, f3, f4⟩ := run_facts isLetter isLetter_zero l.input _ (Nat.le_of_lt hlt)
  have hpos := runLength_pos isLetter isLetter_zero (l.input.drop l.skipWhitespace.position)
    (by rw [h0]; exact hc)
  refine ⟨⟨l.skipWhitespace.position
      + runLength isLetter (l.input.drop l.skipWhitespace.position),
    (l.input.drop l.skipWhitespace.position).takeWhile isLetter,
    atPos l.input (l.skipWhitespace.position
      + runLength isLetter (l.input.drop l.skipWhitespace.position)),
    ?_, rfl, f2, by omega, f1, f3, ?_⟩, ?_⟩
  · rw [hnext, scanAt_letter kw _ (by rw [h0]; exact hc)]
  · by_cases hq : l.skipWhitespace.position
        + runLength isLetter (l.input.drop l.skipWhitespace.position) = l.input.length
    · exact Or.inl hq
    · exact Or.inr ⟨by omega, f4⟩
  · have h1 : (New (ascii "abc1")).NextToken kw
        = some ({ Typ := LookupIdent kw (ascii "abc"), Literal := ascii "abc" },
            atPos (ascii "abc1") 3) := rfl
    show tokensUpToEOF kw (4 + 1) (New (ascii "abc1")) = _
    rw [tokensUpToEOF_step kw 4 _ _ _ h1 (LookupIdent_ne_EOF kw _)]
    rfl

/-- C6 at the state `New("  foo_1")`. -/
theorem C6_identifier_maximal_munch_witness :
    (∃ q lit l1, (New (ascii "  foo_1")).NextToken monkeyKeywords
        = some ({ Typ := LookupIdent monkeyKeywords lit, Literal := lit }, l1)
      ∧ l1.position = q
      ∧ slice (New (ascii "  foo_1")).input (New (ascii "  foo_1")).skipWhitespace.position q
          = some lit
      ∧ (New (ascii "  foo_1")).skipWhitespace.position < q
      ∧ q ≤ (New (ascii "  foo_1")).input.length
      ∧ (∀ j, (New (ascii "  foo_1")).skipWhitespace.position ≤ j → j < q →
          isLetter (byteAt (New (ascii "  foo_1")).input j) = true)
      ∧ (q = (New (ascii "  foo_1")).input.length
          ∨ (q < (New (ascii "  foo_1")).input.length
            ∧ isLetter (byteAt (New (ascii "  foo_1")).input q) = false)))
    ∧ tokenize monkeyKeywords (ascii "abc1")
        = some [{ Typ := LookupIdent monkeyKeywords (ascii "abc"), Literal := ascii "abc" },
            { Typ := .INT, Literal := ascii "1" }, { Typ := .EOF, Literal := [] }] :=
  C6_identifier_maximal_munch monkeyKeywords (New (ascii "  foo_1")) (by decide) (by decide)

/-- C7: in every well-formed state whose current character after the whitespace
skip, at index `p`, is a decimal digit, `NextToken` returns the token of type
`INT` with literal `input[p:q]` and ends with `position = q`, where `q` is the
least index `≥ p` with `q = len(input)` or `input[q]` not a digit.  The input
`12345;` yields `INT 12345`, `SEMICOLON ;`, `EOF`. -/
theorem C7_integer_maximal_munch (kw : List Nat → Option Keyword) (l : Lexer)
    (hl : l.Synced) (hc : isDigit l.skipWhitespace.ch = true) :
    (∃ q lit l1, l.NextToken kw = some ({ Typ := .INT, Literal := lit }, l1)
      ∧ l1.position = q
      ∧ slice l.input l.skipWhitespace.position q = some lit
      ∧ l.skipWhitespace.position < q ∧ q ≤ l.input.length
      ∧ (∀ j, l.skipWhitespace.position ≤ j → j < q → isDigit (byteAt l.input j) = true)
      ∧ (q = l.input.length ∨ (q < l.input.length ∧ isDigit (byteAt l.input q) = false)))
    ∧ tokenize kw (ascii "12345;")
        = some [{ Typ := .INT, Literal := ascii "12345" },
            { Typ := .SEMICOLON, Literal := ascii ";" }, { Typ := .EOF, Literal := [] }] := by
  obtain ⟨_, _, hch, hnext⟩ := synced_next kw l hl
  rw [hch] at hc
  have h0 := head_drop l.input l.skipWhitespace.position
  have hlt := lt_of_byteAt_ne_zero _ _ (isDigit_bound _ hc).1
  obtain ⟨f1, f2, f3, f4⟩ := run_facts isDigit isDigit_zero l.input _ (Nat.le_of_lt hlt)
  have hpos := runLength_pos isDigit isDigit_zero (l.input.drop l.skipWhitespace.position)
    (by rw [h0]; exact hc)
  refine ⟨⟨l.skipWhitespace.position
      + runLength isDigit (l.input.drop l.skipWhitespace.position),
    (l.input.drop l.skipWhitespace.position).takeWhile isDigit,
    atPos l.input (l.skipWhitespace.position
      + runLength isDigit (l.input.drop l.skipWhitespace.position)),
    ?_, rfl, f2, by omega, f1, f3, ?_⟩, ?_⟩
  · rw [hnext, scanAt_digit kw _ (by rw [h0]; exact hc)]
  · by_cases hq : l.skipWhitespace.position
        + runLength isDigit (l.input.drop l.skipWhitespace.position) = l.input.length
    · exact Or.inl hq
    · exact Or.inr ⟨by omega, f4⟩
  · rfl

/-- C7 at the state `New("x 42+")` after one call. -/
theorem C7_integer_maximal_munch_witness :
    (∃ q lit l1, (atPos (ascii "x 42+") 1).NextToken monkeyKeywords
        = some ({ Typ := .INT, Literal := lit }, l1)
      ∧ l1.position = q
      ∧ slice (atPos (ascii "x 42+") 1).input (atPos (ascii "x 42+") 1).skipWhitespace.position q
          = some lit
      ∧ (atPos (ascii "x 42+") 1).skipWhitespace.position < q
      ∧ q ≤ (atPos (ascii "x 42+") 1).input.length
      ∧ (∀ j, (atPos (ascii "x 42+") 1).skipWhitespace.position ≤ j → j < q →
          isDigit (byteAt (atPos (ascii "x 42+") 1).input j) = true)
      ∧ (q = (atPos (ascii "x 42+") 1).input.length
          ∨ (q < (atPos (ascii "x 42+") 1).input.length
            ∧ isDigit (byteAt (atPos (ascii "x 42+") 1).input q) = false)))
    ∧ tokenize monkeyKeywords (ascii "12345;")
        = some [{ Typ := .INT, Literal := ascii "12345" },
            { Typ := .SEMICOLON, Literal := ascii ";" }, { Typ := .EOF, Literal := [] }] :=
  C7_integer_maximal_munch monkeyKeywords (atPos (ascii "x 42+") 1) (by decide) (by decide)

/-- C8: for every input `s` and all strings `w1`, `w2` made only of space, tab,
newline and carriage return, the token sequence (the tokens up to and including
the first `EOF`) of `New(w1 ++ s ++ w2)` exists and equals the token sequence of
`New(s)`.  The input of three spaces, `x` and three spaces yields the identifier
with literal `x`, then `EOF`. -/
theorem C8_whitespace_yields_no_token (kw : List Nat → Option Keyword) (s w1 w2 : List Nat)
    (h1 : ∀ b ∈ w1, isWhitespace b = true) (h2 : ∀ b ∈ w2, isWhitespace b = true) :
    (∃ ts, tokenize kw s = some ts ∧ tokenize kw (w1 ++ s ++ w2) = some ts)
    ∧ tokenize kw (ascii "   x   ")
        = some [{ Typ := LookupIdent kw (ascii "x"), Literal := ascii "x" },
            { Typ := .EOF, Literal := [] }] := by
  have key : ∀ (a x b : List Nat), (∀ c ∈ a, isWhitespace c = true) →
      (∀ c ∈ b, isWhitespace c = true) → tokenize kw (a ++ x ++ b) = tokenize kw x := by
    intro a x b ha hb
    unfold tokenize
    rw [New_eq, New_eq, List.append_assoc, tokens_prepend_ws kw _ a (x ++ b) ha,
      tokens_append_ws kw b hb]
    exact tokens_fuel kw _ _ x (by simp only [List.length_append]; omega) (Nat.lt_succ_self _)
  obtain ⟨n, ts, l, _, _, _, _, _, _, hts⟩ := reaches_eof_tokenize kw s
  refine ⟨⟨ts, hts, by rw [key w1 s w2 h1 h2]; exact hts⟩, ?_⟩
  have e := key (ascii "   ") (ascii "x") (ascii "   ") (by decide) (by decide)
  have e1 : ascii "   " ++ ascii "x" ++ ascii "   " = ascii "   x   " := by decide
  rw [e1] at e
  rw [e]
  have hx : (New (ascii "x")).NextToken kw
      = some ({ Typ := LookupIdent kw (ascii "x"), Literal := ascii "x" },
          atPos (ascii "x") 1) := rfl
  show tokensUpToEOF kw (1 + 1) (New (ascii "x")) = _
  rw [tokensUpToEOF_step kw 1 _ _ _ hx (LookupIdent_ne_EOF kw _)]
  rfl

/-- C8 at `s = "a+1"`, `w1` a newline and a tab, `w2` a carriage return and a
space. -/
theorem C8_whitespace_yields_no_token_witness :
    (∃ ts, tokenize monkeyKeywords (ascii "a+1") = some ts
      ∧ tokenize monkeyKeywords ([10, 9] ++ ascii "a+1" ++ [13, 32]) = some ts)
    ∧ tokenize monkeyKeywords (ascii "   x   ")
        = some [{ Typ := .IDENT, Literal := ascii "x" }, { Typ := .EOF, Literal := [] }] :=
  C8_whitespace_yields_no_token monkeyKeywords (ascii "a+1") [10, 9] [13, 32]
    (by decide) (by decide)

/-- C9: in every well-formed state whose current character `c` after the
whitespace skip, at index `p`, is not 0, not one of `; ( ) , + - * / > <`, the
two braces, `=` and `!`, not a letter or underscore and not a decimal digit,
`NextToken` returns the token of type `ILLEGAL` whose literal is `string(c)`, the
one-character string of `c` (the byte `c` itself when `c` is ASCII, the two
bytes that encode the character `c` in UTF-8 otherwise), and ends with
`position = p+1`.  The input `@` yields `ILLEGAL @`, then `EOF`. -/
theorem C9_unclassifiable_character (kw : List Nat → Option Keyword) (l : Lexer)
    (hl : l.Synced) (h0 : l.skipWhitespace.ch ≠ 0)
    (hop : l.skipWhitespace.ch ∉ [59, 40, 41, 44, 43, 45, 42, 47, 62, 60, 123, 125, 61, 33])
    (hletter : isLetter l.skipWhitespace.ch = false)
    (hdigit : isDigit l.skipWhitespace.ch = false) :
    (∃ l1, l.NextToken kw
        = some ({ Typ := .ILLEGAL, Literal := byteToString l.skipWhitespace.ch }, l1)
      ∧ l1.position = l.skipWhitespace.position + 1)
    ∧ (l.skipWhitespace.ch < 128 → byteToString l.skipWhitespace.ch = [l.skipWhitespace.ch])
    ∧ (128 ≤ l.skipWhitespace.ch →
        byteToString l.skipWhitespace.ch
          = [192 + l.skipWhitespace.ch / 64, 128 + l.skipWhitespace.ch % 64])
    ∧ tokenize kw (ascii "@")
        = some [{ Typ := .ILLEGAL, Literal := ascii "@" }, { Typ := .EOF, Literal := [] }] := by
  obtain ⟨_, _, hch, hnext⟩ := synced_next kw l hl
  have hd := head_drop l.input l.skipWhitespace.position
  rw [hch] at h0 hop hletter hdigit
  obtain ⟨hs, c1, c2⟩ := singleTag_none_of_not_mem _ hop
  refine ⟨⟨atPos l.input (l.skipWhitespace.position + 1), ?_, rfl⟩, ?_, ?_, rfl⟩
  · rw [hnext, scanAt_illegal kw _ (by rw [hd]; exact hs) (by rw [hd]; exact c1)
      (by rw [hd]; exact c2) (by rw [hd]; exact h0) (by rw [hd]; exact hletter)
      (by rw [hd]; exact hdigit), hd, hch]
    rfl
  · intro hlt
    simp only [byteToString, hlt, if_true]
  · intro hge
    simp only [byteToString, if_neg (by omega : ¬ l.skipWhitespace.ch < 128)]

/-- C9 at the state `New("x #y")` after one call, where the current character
after the skip is `#`. -/
theorem C9_unclassifiable_character_witness :
    (∃ l1, (atPos (ascii "x #y") 1).NextToken monkeyKeywords
        = some ({ Typ := .ILLEGAL,
                  Literal := byteToString (atPos (ascii "x #y") 1).skipWhitespace.ch }, l1)
      ∧ l1.position = (atPos (ascii "x #y") 1).skipWhitespace.position + 1)
    ∧ ((atPos (ascii "x #y") 1).skipWhitespace.ch < 128 →
        byteToString (atPos (ascii "x #y") 1).skipWhitespace.ch
          = [(atPos (ascii "x #y") 1).skipWhitespace.ch])
    ∧ (128 ≤ (atPos (ascii "x #y") 1).skipWhitespace.ch →
        byteToString (atPos (ascii "x #y") 1).skipWhitespace.ch
          = [192 + (atPos (ascii "x #y") 1).skipWhitespace.ch / 64,
              128 + (atPos (ascii "x #y") 1).skipWhitespace.ch % 64])
    ∧ tokenize monkeyKeywords (ascii "@")
        = some [{ Typ := .ILLEGAL, Literal := ascii "@" }, { Typ := .EOF, Literal := [] }] :=
  C9_unclassifiable_character monkeyKeywords (atPos (ascii "x #y") 1) (by decide) (by decide)
    (by decide) (by decide) (by decide)

/-- C10, as stated, fails on a byte above 127: on the one-byte input 200 the call
returns `ILLEGAL` and ends with `position = 1`, so `s = 0`, `e = 1` and
`input[s:e]` is the byte 200, but the literal is `string(ch)`, the two bytes
195, 136 that encode the code point 200 in UTF-8. -/
theorem C10_counterexample :
    (New [200]).NextToken monkeyKeywords
        = some ({ Typ := .ILLEGAL, Literal := [195, 136] },
            { input := [200], position := 1, readPosition := 2, ch := 0 })
      ∧ (New [200]).position = 0
      ∧ isWhitespace (byteAt [200] 0) = false
      ∧ slice [200] 0 1 = some [200] := by
  decide

/-- C10, amended: for every input and every call of `NextToken`, in a well-formed
state, that returns a token other than `EOF`: if `s` is the index of the first
non-whitespace byte at or after the position before the call and `e` is the
position after the call, then `s < e ≤ len(input)`; when `input[s]` is an ASCII
byte (below 128) the literal equals `input[s:e]` byte for byte, and when it is
128 or more the token is `ILLEGAL`, `e = s+1` and the literal is `string(ch)`,
the two-byte UTF-8 encoding of that byte's code point. -/
theorem C10_literal_is_consumed_slice (kw : List Nat → Option Keyword) (l l1 : Lexer)
    (t : Token) (s : Nat) (hl : l.Synced) (h : l.NextToken kw = some (t, l1))
    (hne : t.Typ ≠ .EOF) (hs1 : l.position ≤ s)
    (hs2 : ∀ j, l.position ≤ j → j < s → isWhitespace (byteAt l.input j) = true)
    (hs3 : isWhitespace (byteAt l.input s) = false) :
    s < l1.position ∧ l1.position ≤ l.input.length
      ∧ (byteAt l.input s < 128 → slice l.input s l1.position = some t.Literal)
      ∧ (128 ≤ byteAt l.input s →
          t = { Typ := .ILLEGAL, Literal := [192 + byteAt l.input s / 64,
                  128 + byteAt l.input s % 64] }
            ∧ l1.position = s + 1) := by
  obtain ⟨_, _, _, hnext⟩ := synced_next kw l hl
  rw [skip_position_unique l hl s hs1 hs2 hs3, h] at hnext
  injection hnext with hnext
  injection hnext with ht hl1
  subst ht hl1
  have hd := head_drop l.input s
  have hnz : byteAt (l.input.drop s) 0 ≠ 0 := fun e => hne ((scanAt_eof_iff kw _).2 e)
  have hlt : s < l.input.length := lt_of_byteAt_ne_zero _ _ (by rw [← hd]; exact hnz)
  obtain ⟨hk, hlit⟩ := scanAt_consumes kw _ hnz
  have hk1 := scanAt_pos kw (l.input.drop s)
  rw [List.length_drop] at hk
  refine ⟨?_, ?_, ?_, ?_⟩
  · show s < s + _
    omega
  · show s + _ ≤ _
    omega
  · intro hascii
    show slice l.input s (s + _) = _
    unfold slice
    rw [if_pos ⟨by omega, by omega⟩, hlit (by rw [hd]; exact hascii)]
    simp
  · intro hhigh
    rw [high_byte_illegal kw _ (by rw [hd]; exact hhigh), hd]
    refine ⟨?_, rfl⟩
    simp only [newToken, byteToString, if_neg (by omega : ¬ byteAt l.input s < 128)]

/-- C10 at the state `New(" ab+")`, whose first call returns the identifier `ab`
and ends with `position = 3`; the first non-whitespace byte is at index 1. -/
theorem C10_literal_is_consumed_slice_witness :
    1 < (atPos (ascii " ab+") 3).position
      ∧ (atPos (ascii " ab+") 3).position ≤ (New (ascii " ab+")).input.length
      ∧ (byteAt (New (ascii " ab+")).input 1 < 128 →
          slice (New (ascii " ab+")).input 1 (atPos (ascii " ab+") 3).position
            = some (ascii "ab"))
      ∧ (128 ≤ byteAt (New (ascii " ab+")).input 1 →
          ({ Typ := .IDENT, Literal := ascii "ab" } : Token)
              = { Typ := .ILLEGAL, Literal := [192 + byteAt (New (ascii " ab+")).input 1 / 64,
                    128 + byteAt (New (ascii " ab+")).input 1 % 64] }
            ∧ (atPos (ascii " ab+") 3).position = 1 + 1) :=
  C10_literal_is_consumed_slice monkeyKeywords (New (ascii " ab+")) (atPos (ascii " ab+") 3)
    { Typ := .IDENT, Literal := ascii "ab" } 1 (by decide) (by decide) (by decide) (by decide)
    (by intro j _ hj; interval_cases j; decide) (by decide)

/-- C11: in every well-formed state whose current character after the whitespace
skip, at index `p`, is one of `; ( ) , + - * / > <` and the two braces,
`NextToken` returns the token with the fixed type `SEMICOLON`, `LEFT_PAREN`,
`RIGHT_PAREN`, `COMMA`, `PLUS`, `MINUS`, `ASTERISK`, `SLASH`, `GREATER_THAN`,
`LESS_THAN`, `LEFT_BRACE`, `RIGHT_BRACE` respectively and with literal that one
character, whatever follows it, and ends with `position = p+1`. -/
theorem C11_single_character_tokens (kw : List Nat → Option Keyword) (l : Lexer)
    (c : Nat) (tag : TokenType) (hl : l.Synced)
    (hmem : (c, tag) ∈ [(59, TokenType.SEMICOLON), (40, TokenType.LEFT_PAREN),
      (41, TokenType.RIGHT_PAREN), (44, TokenType.COMMA), (43, TokenType.PLUS),
      (45, TokenType.MINUS), (42, TokenType.ASTERISK), (47, TokenType.SLASH),
      (62, TokenType.GREATER_THAN), (60, TokenType.LESS_THAN), (123, TokenType.LEFT_BRACE),
      (125, TokenType.RIGHT_BRACE)])
    (hc : l.skipWhitespace.ch = c) :
    ∃ l1, l.NextToken kw = some ({ Typ := tag, Literal := [c] }, l1)
      ∧ l1.position = l.skipWhitespace.position + 1 := by
  obtain ⟨_, _, hch, hnext⟩ := synced_next kw l hl
  have hd := head_drop l.input l.skipWhitespace.position
  have hs : singleTag c = some tag ∧ c < 128 := by
    simp only [List.mem_cons, Prod.mk.injEq, List.mem_singleton, List.not_mem_nil, or_false]
      at hmem
    rcases hmem with ⟨rfl, rfl⟩ | ⟨rfl, rfl⟩ | ⟨rfl, rfl⟩ | ⟨rfl, rfl⟩ | ⟨rfl, rfl⟩ | ⟨rfl, rfl⟩
      | ⟨rfl, rfl⟩ | ⟨rfl, rfl⟩ | ⟨rfl, rfl⟩ | ⟨rfl, rfl⟩ | ⟨rfl, rfl⟩ | ⟨rfl, rfl⟩ <;> decide
  have hsc : scanAt kw (l.input.drop l.skipWhitespace.position)
      = ({ Typ := tag, Literal := [c] }, 1) := by
    unfold scanAt
    rw [hd, ← hch, hc, hs.1]
    simp only [newToken, byteToString, hs.2, if_true]
  refine ⟨atPos l.input (l.skipWhitespace.position + 1), ?_, rfl⟩
  rw [hnext, hsc]

/-- C11 at the state `New("a (==")` after one call, where the current character
after the skip is the left parenthesis. -/
theorem C11_single_character_tokens_witness :
    ∃ l1, (atPos (ascii "a (==") 1).NextToken monkeyKeywords
        = some ({ Typ := .LEFT_PAREN, Literal := [40] }, l1)
      ∧ l1.position = (atPos (ascii "a (==") 1).skipWhitespace.position + 1 :=
  C11_single_character_tokens monkeyKeywords (atPos (ascii "a (==") 1) 40 .LEFT_PAREN
    (by decide) (by decide) (by decide)

/-- C14: when `LookupIdent` maps `let` to `LET` and `five` to `IDENT`, the first
six calls of `NextToken` on `New("let five = 5;")` return exactly `LET let`,
`IDENT five`, `ASSIGN =`, `INT 5`, `SEMICOLON ;` and `EOF` with empty literal,
in that order; they are also the token sequence of that input. -/
theorem C14_let_five (kw : List Nat → Option Keyword)
    (hlet : LookupIdent kw (ascii "let") = .LET)
    (hfive : LookupIdent kw (ascii "five") = .IDENT) :
    (calls kw 6 (New (ascii "let five = 5;"))).map Prod.fst
        = some [{ Typ := .LET, Literal := ascii "let" }, { Typ := .IDENT, Literal := ascii "five" },
            { Typ := .ASSIGN, Literal := ascii "=" }, { Typ := .INT, Literal := ascii "5" },
            { Typ := .SEMICOLON, Literal := ascii ";" }, { Typ := .EOF, Literal := [] }]
      ∧ tokenize kw (ascii "let five = 5;")
        = some [{ Typ := .LET, Literal := ascii "let" }, { Typ := .IDENT, Literal := ascii "five" },
            { Typ := .ASSIGN, Literal := ascii "=" }, { Typ := .INT, Literal := ascii "5" },
            { Typ := .SEMICOLON, Literal := ascii ";" }, { Typ := .EOF, Literal := [] }] := by
  have h1 : (New (ascii "let five = 5;")).NextToken kw
      = some ({ Typ := LookupIdent kw (ascii "let"), Literal := ascii "let" },
          atPos (ascii "let five = 5;") 3) := rfl
  have h2 : (atPos (ascii "let five = 5;") 3).NextToken kw
      = some ({ Typ := LookupIdent kw (ascii "five"), Literal := ascii "five" },
          atPos (ascii "let five = 5;") 8) := rfl
  have h3 : calls kw 4 (atPos (ascii "let five = 5;") 8)
      = some ([{ Typ := .ASSIGN, Literal := ascii "=" }, { Typ := .INT, Literal := ascii "5" },
            { Typ := .SEMICOLON, Literal := ascii ";" }, { Typ := .EOF, Literal := [] }],
          atPos (ascii "let five = 5;") 14) := rfl
  have h4 : tokensUpToEOF kw 12 (atPos (ascii "let five = 5;") 8)
      = some [{ Typ := .ASSIGN, Literal := ascii "=" }, { Typ := .INT, Literal := ascii "5" },
            { Typ := .SEMICOLON, Literal := ascii ";" }, { Typ := .EOF, Literal := [] }] := rfl
  rw [hlet] at h1
  rw [hfive] at h2
  constructor
  · show (calls kw (5 + 1) (New (ascii "let five = 5;"))).map Prod.fst = _
    rw [calls, h1]
    simp only
    rw [calls, h2]
    simp only
    rw [h3]
    rfl
  · show tokensUpToEOF kw (13 + 1) (New (ascii "let five = 5;")) = _
    rw [tokensUpToEOF_step kw 13 _ _ _ h1 (by decide),
      tokensUpToEOF_step kw 12 _ _ _ h2 (by decide), h4]
    rfl

/-- C14 with the keyword table of the Monkey language. -/
theorem C14_let_five_witness :
    (calls monkeyKeywords 6 (New (ascii "let five = 5;"))).map Prod.fst
        = some [{ Typ := .LET, Literal := ascii "let" }, { Typ := .IDENT, Literal := ascii "five" },
            { Typ := .ASSIGN, Literal := ascii "=" }, { Typ := .INT, Literal := ascii "5" },
            { Typ := .SEMICOLON, Literal := ascii ";" }, { Typ := .EOF, Literal := [] }]
      ∧ tokenize monkeyKeywords (ascii "let five = 5;")
        = some [{ Typ := .LET, Literal := ascii "let" }, { Typ := .IDENT, Literal := ascii "five" },
            { Typ := .ASSIGN, Literal := ascii "=" }, { Typ := .INT, Literal := ascii "5" },
            { Typ := .SEMICOLON, Literal := ascii ";" }, { Typ := .EOF, Literal := [] }] :=
  C14_let_five monkeyKeywords (by decide) (by decide)

/-- C15: for every input, `New(input)` returns a lexer that stores the input
unchanged, has `position = 0` and `readPosition = 1`, and whose current
character is `input[0]` if the input is non-empty and the sentinel 0 if it is
empty. -/
theorem C15_construction (input : List Nat) :
    (New input).input = input ∧ (New input).position = 0 ∧ (New input).readPosition = 1
      ∧ (New input).ch = (match input with
          | [] => 0
          | b :: _ => b) := by
  rw [New_eq]
  refine ⟨rfl, rfl, rfl, ?_⟩
  cases input with
  | nil => rfl
  | cons b rest => exact byteAt_cons_zero b rest

/-- C16: in every state `peekChar` returns `input[readPosition]` when
`readPosition < len(input)` and the sentinel 0 otherwise, and the state it leaves
is the state it was called in: `input`, `position`, `readPosition` and `ch` are
all unchanged. -/
theorem C16_peekChar_is_pure (l : Lexer) :
    (if l.readPosition < l.input.length then l.input[l.readPosition]? = some l.peekCharStep.1
      else l.peekCharStep.1 = 0)
      ∧ l.peekCharStep.2 = l
      ∧ l.peekCharStep.2.input = l.input ∧ l.peekCharStep.2.position = l.position
      ∧ l.peekCharStep.2.readPosition = l.readPosition ∧ l.peekCharStep.2.ch = l.ch := by
  refine ⟨?_, rfl, rfl, rfl, rfl, rfl⟩
  simp only [Lexer.peekCharStep, Lexer.peekChar]
  by_cases h : l.readPosition < l.input.length
  · rw [if_pos h, if_neg (by omega : ¬ l.readPosition ≥ l.input.length)]
    simp [byteAt, List.getD_eq_getElem?_getD, List.getElem?_eq_getElem h]
  · rw [if_neg h, if_pos (by omega : l.readPosition ≥ l.input.length)]

/-- C12: the current character mirrors the cursor in the state returned by
`New(input)`, after a call of `readChar` in any state, and after a call of
`NextToken` in any state: `ch` equals `input[position]` when
`position < len(input)` and the sentinel 0 otherwise. -/
theorem C12_ch_mirrors_cursor (kw : List Nat → Option Keyword) (input : List Nat)
    (l l1 : Lexer) (t : Token) (h : l.NextToken kw = some (t, l1)) :
    ChMirrors (New input) ∧ ChMirrors l.readChar ∧ ChMirrors l1 := by
  refine ⟨readChar_mirrors _, readChar_mirrors l, ?_⟩
  obtain ⟨y, n, p, _, rfl⟩ := NextToken_after_readChar kw l l1 t h
  exact advanceLoop_preserves ChMirrors readChar_mirrors p n _ (readChar_mirrors y)

/-- C12 at `New("ab 1")` and its first call, which returns the identifier `ab`. -/
theorem C12_ch_mirrors_cursor_witness :
    ChMirrors (New (ascii "ab 1")) ∧ ChMirrors (New (ascii "ab 1")).readChar
      ∧ ChMirrors (atPos (ascii "ab 1") 2) :=
  C12_ch_mirrors_cursor monkeyKeywords (ascii "ab 1") (New (ascii "ab 1"))
    (atPos (ascii "ab 1") 2) { Typ := .IDENT, Literal := ascii "ab" } (by decide)

/-- C13: in every state `l` reachable from `New(input)` by calls of `NextToken`,
the next call returns a token, and so do any number `n` of calls from
`New(input)`, after which `readPosition ≤ len(input)+1+n`; the byte that `readChar` and `peekChar` read at `readPosition`,
when their guard lets them index, is a byte of the input, and the slices taken
by `readIdentifier` and `readNumber` are in bounds,
`start ≤ position ≤ len(input)`. -/
theorem C13_next_token_is_total (kw : List Nat → Option Keyword) (input : List Nat) (n : Nat)
    (l : Lexer) (h : Reachable kw input l) :
    (∃ ts l1, calls kw n (New input) = some (ts, l1) ∧ ts.length = n
        ∧ l1.readPosition ≤ input.length + 1 + n)
      ∧ (∃ t l1, l.NextToken kw = some (t, l1))
      ∧ (l.readPosition < l.input.length →
          l.input[l.readPosition]? = some l.readChar.ch
            ∧ l.input[l.readPosition]? = some l.peekChar)
      ∧ (isLetter l.skipWhitespace.ch = true →
          ∃ lit l1, l.skipWhitespace.readIdentifier = some (lit, l1)
            ∧ l.skipWhitespace.position ≤ l1.position ∧ l1.position ≤ l.input.length)
      ∧ (isDigit l.skipWhitespace.ch = true →
          ∃ lit l1, l.skipWhitespace.readNumber = some (lit, l1)
            ∧ l.skipWhitespace.position ≤ l1.position ∧ l1.position ≤ l.input.length) := by
  obtain ⟨pos, rfl⟩ := reachable_atPos kw input l h
  refine ⟨?_, ⟨_, _, NextToken_atPos kw input pos⟩, ?_, ?_, ?_⟩
  · obtain ⟨ts, pos1, h1, h2, _⟩ := calls_atPos kw input n 0
    have hb := count_bound_aux kw input n 0 0 ts _ (Nat.zero_le _) h1
    have hcount : countEOF ts ≤ ts.length := List.length_filter_le _ _
    exact ⟨ts, atPos input pos1, by rw [New_eq]; exact h1, h2, by omega⟩
  · intro hlt
    have e : (atPos input pos).input[(atPos input pos).readPosition]?
        = some (byteAt input (pos + 1)) := by
      have hlt1 : pos + 1 < input.length := hlt
      show input[pos + 1]? = _
      simp [byteAt, List.getD_eq_getElem?_getD, List.getElem?_eq_getElem hlt1]
    rw [e, readChar_atPos, peekChar_atPos]
    exact ⟨rfl, rfl⟩
  · rw [skipWhitespace_atPos]
    intro hc
    have hlt := lt_of_byteAt_ne_zero _ _ (isLetter_bound _ hc).1
    have hf := (run_facts isLetter isLetter_zero input _ (Nat.le_of_lt hlt)).1
    exact ⟨_, _, readIdentifier_atPos input _ (Nat.le_of_lt hlt), Nat.le_add_right _ _, hf⟩
  · rw [skipWhitespace_atPos]
    intro hc
    have hlt := lt_of_byteAt_ne_zero _ _ (isDigit_bound _ hc).1
    have hf := (run_facts isDigit isDigit_zero input _ (Nat.le_of_lt hlt)).1
    exact ⟨_, _, readNumber_atPos input _ (Nat.le_of_lt hlt), Nat.le_add_right _ _, hf⟩

/-- C13 at the state reached from `New("ab 12")` by one call, and seven calls
from `New("ab 12")`. -/
theorem C13_next_token_is_total_witness :
    (∃ ts l1, calls monkeyKeywords 7 (New (ascii "ab 12")) = some (ts, l1) ∧ ts.length = 7
        ∧ l1.readPosition ≤ (ascii "ab 12").length + 1 + 7)
      ∧ (∃ t l1, (atPos (ascii "ab 12") 2).NextToken monkeyKeywords = some (t, l1))
      ∧ ((atPos (ascii "ab 12") 2).readPosition < (atPos (ascii "ab 12") 2).input.length →
          (atPos (ascii "ab 12") 2).input[(atPos (ascii "ab 12") 2).readPosition]?
              = some (atPos (ascii "ab 12") 2).readChar.ch
            ∧ (atPos (ascii "ab 12") 2).input[(atPos (ascii "ab 12") 2).readPosition]?
              = some (atPos (ascii "ab 12") 2).peekChar)
      ∧ (isLetter (atPos (ascii "ab 12") 2).skipWhitespace.ch = true →
          ∃ lit l1, (atPos (ascii "ab 12") 2).skipWhitespace.readIdentifier = some (lit, l1)
            ∧ (atPos (ascii "ab 12") 2).skipWhitespace.position ≤ l1.position
            ∧ l1.position ≤ (atPos (ascii "ab 12") 2).input.length)
      ∧ (isDigit (atPos (ascii "ab 12") 2).skipWhitespace.ch = true →
          ∃ lit l1, (atPos (ascii "ab 12") 2).skipWhitespace.readNumber = some (lit, l1)
            ∧ (atPos (ascii "ab 12") 2).skipWhitespace.position ≤ l1.position
            ∧ l1.position ≤ (atPos (ascii "ab 12") 2).input.length) :=
  C13_next_token_is_total monkeyKeywords (ascii "ab 12") 7 (atPos (ascii "ab 12") 2)
    (Reachable.next (t := { Typ := .IDENT, Literal := ascii "ab" }) Reachable.init (by decide))

/-- C19: the read cursor is exactly one ahead of the cursor,
`readPosition = position + 1`, in the state returned by `New(input)`, after a
call of `readChar` in any state `l0` and after a call of `NextToken` in any state
`l0`; and from a state `l` in which it holds, `position` does not decrease over a
call of `readChar` or of `NextToken` (it grows by at least one). -/
theorem C19_read_cursor_one_ahead (kw : List Nat → Option Keyword) (input : List Nat)
    (l0 l01 l l1 : Lexer) (t0 t : Token)
    (h0 : l0.NextToken kw = some (t0, l01))
    (hinv : l.readPosition = l.position + 1) (h : l.NextToken kw = some (t, l1)) :
    (New input).readPosition = (New input).position + 1
      ∧ l0.readChar.readPosition = l0.readChar.position + 1
      ∧ l01.readPosition = l01.position + 1
      ∧ l.position ≤ l.readChar.position ∧ l.position ≤ l1.position
      ∧ l.position < l.readChar.position ∧ l.position < l1.position := by
  have hahead : ∀ (a b : Lexer) (tk : Token), a.NextToken kw = some (tk, b) →
      b.readPosition = b.position + 1 := by
    intro a b tk hab
    obtain ⟨y, n, p, _, rfl⟩ := NextToken_after_readChar kw a b tk hab
    exact advanceLoop_preserves (fun z => z.readPosition = z.position + 1) readChar_ahead p n _
      (readChar_ahead y)
  have hrc : l.position < l.readChar.position := by
    show l.position < l.readPosition
    omega
  have hn : l.position < l1.position := by
    obtain ⟨y, n, p, hy, rfl⟩ := NextToken_after_readChar kw l l1 t h
    have hskip : l.position ≤ l.skipWhitespace.position :=
      advanceLoop_position_le _ _ l (by omega)
    have hskip1 : l.skipWhitespace.readPosition = l.skipWhitespace.position + 1 :=
      advanceLoop_preserves (fun z => z.readPosition = z.position + 1) readChar_ahead _ _ l hinv
    have hy1 : l.position < y.readChar.position := by
      rcases hy with rfl | rfl
      · show l.position < l.skipWhitespace.readPosition
        omega
      · show l.position < l.skipWhitespace.readPosition + 1
        omega
    exact Nat.lt_of_lt_of_le hy1 (advanceLoop_position_le p n _ (Nat.le_succ _))
  exact ⟨rfl, rfl, hahead l0 l01 t0 h0, Nat.le_of_lt hrc, Nat.le_of_lt hn, hrc, hn⟩

/-- C19 at the first call on `New("ab 1")` and at a call made after `EOF` on
`New("x")`. -/
theorem C19_read_cursor_one_ahead_witness :
    (New (ascii "ab 1")).readPosition = (New (ascii "ab 1")).position + 1
      ∧ (New (ascii "ab 1")).readChar.readPosition = (New (ascii "ab 1")).readChar.position + 1
      ∧ (atPos (ascii "ab 1") 2).readPosition = (atPos (ascii "ab 1") 2).position + 1
      ∧ (atPos (ascii "x") 2).position ≤ (atPos (ascii "x") 2).readChar.position
      ∧ (atPos (ascii "x") 2).position ≤ (atPos (ascii "x") 3).position
      ∧ (atPos (ascii "x") 2).position < (atPos (ascii "x") 2).readChar.position
      ∧ (atPos (ascii "x") 2).position < (atPos (ascii "x") 3).position :=
  C19_read_cursor_one_ahead monkeyKeywords (ascii "ab 1") (New (ascii "ab 1"))
    (atPos (ascii "ab 1") 2) (atPos (ascii "x") 2) (atPos (ascii "x") 3)
    { Typ := .IDENT, Literal := ascii "ab" } { Typ := .EOF, Literal := [] }
    (by decide) (by decide) (by decide)

/-- C17: for every input `s` all of whose bytes are in the range 1..127, the
token sequence of `s` exists, and concatenating in order the literals of its
tokens (the tokens returned on `New(s)` up to the first `EOF`) yields exactly `s`
with every space, tab, newline and carriage-return byte removed. -/
theorem C17_only_whitespace_is_dropped (kw : List Nat → Option Keyword) (s : List Nat)
    (h : ∀ b ∈ s, 1 ≤ b ∧ b ≤ 127) :
    ∃ ts, tokenize kw s = some ts ∧ concatLiterals ts = removeWhitespace s := by
  unfold tokenize
  rw [New_eq]
  exact literals_cover kw (s.length + 1) s (Nat.lt_succ_self _)
    (fun b hb => ⟨by have := h b hb; omega, by have := h b hb; omega⟩)

/-- C17 at the input `let x = 5 ;` with a tab and a newline in it. -/
theorem C17_only_whitespace_is_dropped_witness :
    ∃ ts, tokenize monkeyKeywords (ascii "let\tx = 5\n;") = some ts
      ∧ concatLiterals ts = removeWhitespace (ascii "let\tx = 5\n;") :=
  C17_only_whitespace_is_dropped monkeyKeywords (ascii "let\tx = 5\n;") (by decide)

/-- C18: for every token returned by `NextToken` in a well-formed state: if its
type is `INT`, its literal is a non-empty string of decimal digits; and if it
comes from the identifier branch (the current character after the whitespace
skip is a letter or underscore), its type is `LookupIdent(literal)` and its
literal is a non-empty string of letters and underscores. -/
theorem C18_literals_are_well_formed (kw : List Nat → Option Keyword) (l l1 : Lexer)
    (t : Token) (hl : l.Synced) (h : l.NextToken kw = some (t, l1)) :
    (t.Typ = .INT → t.Literal ≠ [] ∧ ∀ b ∈ t.Literal, isDigit b = true)
      ∧ (isLetter l.skipWhitespace.ch = true →
          t.Typ = LookupIdent kw t.Literal ∧ t.Literal ≠ []
            ∧ ∀ b ∈ t.Literal, isLetter b = true) := by
  obtain ⟨_, _, hch, hnext⟩ := synced_next kw l hl
  rw [h] at hnext
  injection hnext with hnext
  injection hnext with ht _
  have hd := head_drop l.input l.skipWhitespace.position
  subst ht
  constructor
  · intro hint
    obtain ⟨hdig, hlit⟩ := scanAt_INT kw _ hint
    rw [hlit]
    exact ⟨takeWhile_ne_nil isDigit isDigit_zero _ hdig,
      fun b hb => List.mem_takeWhile_imp hb⟩
  · intro hc
    rw [hch, ← hd] at hc
    rw [scanAt_letter kw _ hc]
    exact ⟨rfl, takeWhile_ne_nil isLetter isLetter_zero _ hc,
      fun b hb => List.mem_takeWhile_imp hb⟩

/-- C18 at the states `New("n_x 42")`, whose call returns the identifier `n_x`,
and the state after that call, whose call returns `INT 42`. -/
theorem C18_literals_are_well_formed_witness :
    (ascii "42" ≠ [] ∧ ∀ b ∈ ascii "42", isDigit b = true)
      ∧ (TokenType.IDENT = LookupIdent monkeyKeywords (ascii "n_x") ∧ ascii "n_x" ≠ []
          ∧ ∀ b ∈ ascii "n_x", isLetter b = true) :=
  ⟨(C18_literals_are_well_formed monkeyKeywords (atPos (ascii "n_x 42") 3)
      (atPos (ascii "n_x 42") 6) { Typ := .INT, Literal := ascii "42" }
      (by decide) (by decide)).1 rfl,
    (C18_literals_are_well_formed monkeyKeywords (New (ascii "n_x 42"))
      (atPos (ascii "n_x 42") 3) { Typ := .IDENT, Literal := ascii "n_x" }
      (by decide) (by decide)).2 (by decide)⟩

end MonkeyLexer
